import Mathlib

/-!
Verification of the url-string-parser repository.

The TypeScript sources are shallowly embedded: strings are `List Char`,
nullable values are `Option`, the asynchronous collaborator callbacks
(category resolver / type converter and obfuscator / encryptor) are pure
optional functions whose `Option` result models success/thrown rejection,
and the trace callback is modelled by returning the list of emitted trace
records.  Each definition is translated from the function of the same name
in the sources (`src/utils/parser.utils.ts`, `src/parsers/queryParser.ts`,
`src/parsers/urlParser.ts`, `src/services/transformService.ts`,
`src/hooks/useUrlQueryParser.ts`).
-/

namespace UrlParser

/-- Strings of the embedded program: JavaScript strings as lists of characters. -/
abbrev Str := List Char

/-- JavaScript string truthiness: a string is truthy iff it is non-empty. -/
def strTruthy (s : Str) : Bool := !s.isEmpty

/-- JavaScript truthiness of a nullable string (`string | null`):
truthy iff non-null and non-empty. -/
def optTruthy : Option Str → Bool
  | some s => strTruthy s
  | none => false

/-- JavaScript `a || b` on a nullable string with a string fallback. -/
def jsOrStr (a : Option Str) (b : Str) : Str :=
  if optTruthy a then a.getD [] else b

/-- JavaScript `a || b` on two nullable strings. -/
def jsOrOpt (a b : Option Str) : Option Str :=
  if optTruthy a then a else b

/-- `ParameterFlags` from `src/types/parser.types.ts`. -/
structure ParameterFlags where
  encrypted : Bool
  required : Bool
  literal : Bool
deriving DecidableEq, Repr

/-- The all-false flag record used as the default throughout the sources. -/
def noFlags : ParameterFlags := ⟨false, false, false⟩

/-- `ParameterType` from `src/types/parser.types.ts`. -/
inductive ParameterType where
  | A
  | B
  | LITERAL
  | UNKNOWN
  | GLOBAL
deriving DecidableEq, Repr

/-- `ProcessingMode` from `src/types/parser.types.ts`. -/
inductive ProcessingMode where
  | PARAMETER
  | SUBSTITUTION
deriving DecidableEq, Repr

/-- `FilteringMode` from `src/types/parser.types.ts`. -/
inductive FilteringMode where
  | DEFAULT
  | STRICT
deriving DecidableEq, Repr

/-- `ATYPE_VALUES` from `src/constants/typeValues.ts`. -/
def ATYPE_VALUES : List Str :=
  ["A_TYPE_1".toList, "A_TYPE_2".toList, "A_TYPE_3".toList, "A_TYPE_4".toList,
   "A_TYPE_5".toList, "A_TYPE_6".toList, "A_TYPE_11".toList, "A_TYPE3".toList,
   "PROC".toList, "NAME".toList, "AGE".toList, "AED".toList, "TEXT".toList]

/-- `BTYPE_VALUES` from `src/constants/typeValues.ts`. -/
def BTYPE_VALUES : List Str :=
  ["B_TYPE_1".toList, "B_TYPE_2".toList, "B_TYPE_3".toList, "B_TYPE_4".toList,
   "B_TYPE_9".toList]

/-- `detectParameterType` from `src/utils/parser.utils.ts`. -/
def detectParameterType (value : Str) : ParameterType :=
  if value ∈ ATYPE_VALUES then .A
  else if value ∈ BTYPE_VALUES then .B
  else .UNKNOWN

/-- `parseFlags` from `src/utils/parser.utils.ts`: fold over the flag string,
setting a flag per known letter, ignoring unknown letters. -/
def parseFlags (flagString : Str) : ParameterFlags :=
  flagString.foldl
    (fun f c =>
      if c = 'e' then { f with encrypted := true }
      else if c = 'r' then { f with required := true }
      else if c = 'v' then { f with literal := true }
      else f)
    noFlags

/-- The flag letters `e`, `r`, `v` (the character class `[erv]`). -/
def isFlagChar (c : Char) : Bool := c = 'e' || c = 'r' || c = 'v'

/-- JavaScript line terminators, the characters the regex `.` does not match. -/
def isLineTerminator (c : Char) : Bool :=
  c = '\n' || c = '\r' || c = ' ' || c = ' '

/-- A brace character. -/
def isBrace (c : Char) : Bool := c = '{' || c = '}'

/-- Matcher for the regex `^([erv]*)\{(.+)\}$` used by
`extractValueWithBrackets` and `parseNestedStructure`: the leading maximal
run of flag letters must be followed by `{`, the string must end with `}`,
and the capture between them must be non-empty and free of line
terminators (`.` does not match them). -/
def matchFlagBracket (s : Str) : Option (Str × Str) :=
  match s.dropWhile isFlagChar with
  | c0 :: rest =>
    if c0 = '{' then
      if rest.getLast? = some '}' then
        if !rest.dropLast.isEmpty &&
            rest.dropLast.all (fun c => !isLineTerminator c) then
          some (s.takeWhile isFlagChar, rest.dropLast)
        else none
      else none
    else none
  | [] => none

/-- `extractValueWithBrackets` from `src/utils/parser.utils.ts`:
returns (value, flags, extractedValue). -/
def extractValueWithBrackets (input : Str) : Str × ParameterFlags × Option Str :=
  match matchFlagBracket input with
  | none => (input, noFlags, none)
  | some (fl, content) => (input, parseFlags fl, some content)

/-- `parseNestedStructure` from `src/utils/parser.utils.ts`:
returns (value, globalFlags, content). -/
def parseNestedStructure (input : Str) : Str × ParameterFlags × Str :=
  match matchFlagBracket input with
  | some (fl, content) =>
    let flags := parseFlags fl
    if flags.encrypted || flags.required || flags.literal then
      (input, flags, content)
    else (input, noFlags, input)
  | none => (input, noFlags, input)

/-- `determineParameterType` from `src/utils/parser.utils.ts`. -/
def determineParameterType (value : Str) (flags : ParameterFlags) : ParameterType :=
  if flags.literal then .LITERAL
  else detectParameterType value

/-- `getFinalValue` from `src/utils/parser.utils.ts`: the six-tier priority
cascade.  Tiers 1–2 test `!== null`; tiers 4–5 use JavaScript falsiness of
`convertedValue`. -/
def getFinalValue (originalValue : Str) (extractedValue : Option Str)
    (convertedValue : Option Str) (encryptedValue : Option Str)
    (flags : ParameterFlags) (_type : ParameterType)
    (processingMode : ProcessingMode) : Str :=
  match encryptedValue with
  | some e => e
  | none =>
    match convertedValue with
    | some c => c
    | none =>
      if flags.literal && extractedValue.isSome then
        extractedValue.getD []
      else if processingMode = .SUBSTITUTION && !flags.literal && !optTruthy convertedValue then
        []
      else if processingMode = .PARAMETER && !flags.literal && !optTruthy convertedValue then
        []
      else originalValue

/-- `isValidValue` from `src/utils/parser.utils.ts`. -/
def isValidValue (type : ParameterType) (_extractedValue : Option Str)
    (convertedValue : Option Str) (flags : ParameterFlags)
    (processingMode : ProcessingMode) : Bool :=
  if processingMode = .SUBSTITUTION then true
  else if flags.literal then true
  else if type = .UNKNOWN && !optTruthy convertedValue then false
  else if (type = .A || type = .B) && !optTruthy convertedValue then false
  else true

/-- Search for the regex `\{.*\}` inside `s` (used by `detectProcessingMode`
on the bracket content): some `{` followed, with no line terminator in
between, by some `}`. -/
def hasCloseBeforeLineTerminator : Str → Bool
  | [] => false
  | c :: rest =>
    if c = '}' then true
    else if isLineTerminator c then false
    else hasCloseBeforeLineTerminator rest

/-- `\{.*\}` tested anywhere in the string. -/
def containsBracketRegion : Str → Bool
  | [] => false
  | c :: rest =>
    (c = '{' && hasCloseBeforeLineTerminator rest) || containsBracketRegion rest

/-- Test of the regex `^[erv]*\{[^{}]+\}$` (first check of
`detectProcessingMode`): after the maximal run of flag letters comes `{`,
the string ends with `}`, and the interior is non-empty and brace-free. -/
def paramShapeTest (s : Str) : Bool :=
  match s.dropWhile isFlagChar with
  | c0 :: rest =>
    c0 = '{' && rest.getLast? = some '}' &&
      (!rest.dropLast.isEmpty && rest.dropLast.all (fun c => !isBrace c))
  | [] => false

/-- `detectProcessingMode` from `src/utils/parser.utils.ts`. -/
def detectProcessingMode (value : Str) : ProcessingMode :=
  if paramShapeTest value then
    match matchFlagBracket value with
    | some (_, content) =>
      if !containsBracketRegion content then .PARAMETER else .SUBSTITUTION
    | none => .SUBSTITUTION
  else .SUBSTITUTION

/-- The value-priority cascade exactly as the specification words it
(claim C2): (1) encryptedValue if non-null; (2) convertedValue if
non-null; (3) extractedValue if the literal flag is set and it is
non-null; (4)/(5) the empty string when the mode is SUBSTITUTION or
PARAMETER and neither the literal flag nor a converted value is present;
(6) originalValue. -/
def getFinalValueSpec (originalValue : Str) (extractedValue : Option Str)
    (convertedValue : Option Str) (encryptedValue : Option Str)
    (flags : ParameterFlags) (processingMode : ProcessingMode) : Str :=
  if encryptedValue.isSome then encryptedValue.getD []
  else if convertedValue.isSome then convertedValue.getD []
  else if flags.literal && extractedValue.isSome then extractedValue.getD []
  else if (processingMode = .SUBSTITUTION || processingMode = .PARAMETER)
      && !flags.literal && convertedValue.isNone then []
  else originalValue

/-- Claim C3's notion of a bracket region inside a content string:
a `{` followed (anywhere later) by a `}`. -/
def hasBracketPair : Str → Bool
  | [] => false
  | c :: rest => (c = '{' && rest.contains '}') || hasBracketPair rest

/-- The shape claim C3 asserts to be equivalent to PARAMETER mode: the
whole string is `flags{content}` — zero or more of the letters `e`, `r`,
`v`, then `{`, then content, then `}` ending the string — and the content
contains no bracket region. -/
def claimParamShape (s : Str) : Prop :=
  ∃ fl c : Str, fl.all isFlagChar ∧ s = fl ++ '{' :: (c ++ ['}']) ∧
    hasBracketPair c = false

/-- The shape that `detectProcessingMode` actually accepts as PARAMETER:
`flags{content}` where the content is non-empty, contains no brace at
all, and contains no line terminator (the `.` of the second regex). -/
def codeParamShape (s : Str) : Prop :=
  ∃ fl c : Str, fl.all isFlagChar ∧ c ≠ [] ∧ c.all (fun ch => !isBrace ch) ∧
    c.all (fun ch => !isLineTerminator ch) ∧ s = fl ++ '{' :: (c ++ ['}'])

/-- JavaScript truthiness of `current.trim()`: the string has a
non-whitespace character. -/
def trimNonEmpty (s : Str) : Bool := s.any (fun c => !c.isWhitespace)

/-- `smartSplitQuery` from `src/parsers/queryParser.ts`: scan the string
keeping a brace-depth counter (incremented on `{`, decremented on `}`,
with no lower bound), treat `&` as a separator only at depth zero, and
keep only pieces whose trim is non-empty. -/
def smartSplitAux : Str → Str → Int → List Str → List Str
  | [], current, _, pairs =>
    if trimNonEmpty current then pairs ++ [current] else pairs
  | c :: rest, current, depth, pairs =>
    if c = '{' then smartSplitAux rest (current ++ [c]) (depth + 1) pairs
    else if c = '}' then smartSplitAux rest (current ++ [c]) (depth - 1) pairs
    else if c = '&' ∧ depth = 0 then
      smartSplitAux rest [] depth
        (if trimNonEmpty current then pairs ++ [current] else pairs)
    else smartSplitAux rest (current ++ [c]) depth pairs

/-- Entry point of the depth-aware split. -/
def smartSplitQuery (content : Str) : List Str := smartSplitAux content [] 0 []

/-- Claim C4's reference split, following the claim's words: split the
string at exactly those `&` characters occurring at brace-depth zero,
where the depth is a counter incremented on `{` and decremented on `}`. -/
def depthZeroSplitAux : Str → Int → Str → List Str
  | [], _, current => [current]
  | c :: rest, depth, current =>
    if c = '&' ∧ depth = 0 then current :: depthZeroSplitAux rest depth []
    else depthZeroSplitAux rest
      (depth + (if c = '{' then 1 else 0) - (if c = '}' then 1 else 0))
      (current ++ [c])

/-- Split at all depth-zero `&` separators. -/
def depthZeroSplit (s : Str) : List Str := depthZeroSplitAux s 0 []

/-- The running brace-depth counter of a string (claim C10): number of
`{` minus number of `}`. -/
def braceDepth (s : Str) : Int :=
  s.foldl
    (fun d c => d + (if c = '{' then 1 else 0) - (if c = '}' then 1 else 0)) 0

/-- `ParsedQuery` from `src/types/parser.types.ts`. -/
structure ParsedQuery where
  key : Str
  value : Str
  originalValue : Str
  flags : ParameterFlags
  type : ParameterType
  extractedValue : Option Str
  convertedValue : Option Str
  encryptedValue : Option Str
  finalValue : Str
  processingMode : ProcessingMode
deriving DecidableEq, Repr

/-- `GlobalParsedQuery` from `src/types/parser.types.ts`. -/
structure GlobalParsedQuery extends ParsedQuery where
  innerResults : List ParsedQuery
deriving DecidableEq, Repr

/-- A query entry as returned by `parseQueryString`: either a plain entry
or the global wrapper entry (the dynamic `innerResults`-probing of the
sources as a tagged variant). -/
inductive QueryItem where
  | plain (q : ParsedQuery)
  | global (g : GlobalParsedQuery)
deriving DecidableEq, Repr

/-- Flag merging of `parseRecursive`: `encrypted` and `literal` are taken
from the individual flags only, `required` is the parent's OR the
individual one. -/
def mergedFlags (parentFlags flags : ParameterFlags) : ParameterFlags :=
  ⟨flags.encrypted, parentFlags.required || flags.required, flags.literal⟩

/-- The SUBSTITUTION-mode query entry built by `parseRecursive`. -/
def subQueryEntry (pf : ParameterFlags) (key val : Str) : ParsedQuery :=
  { key := key, value := val, originalValue := val,
    flags := mergedFlags pf (extractValueWithBrackets val).2.1,
    type := .UNKNOWN,
    extractedValue := some (jsOrStr (extractValueWithBrackets val).2.2 val),
    convertedValue := none, encryptedValue := none,
    finalValue := val, processingMode := .SUBSTITUTION }

/-- The PARAMETER-mode query entry built by `parseRecursive`. -/
def paramQueryEntry (pf : ParameterFlags) (key val : Str) : ParsedQuery :=
  { key := key, value := val, originalValue := val,
    flags := mergedFlags pf (extractValueWithBrackets val).2.1,
    type := determineParameterType (jsOrStr (extractValueWithBrackets val).2.2 val)
      (mergedFlags pf (extractValueWithBrackets val).2.1),
    extractedValue := (extractValueWithBrackets val).2.2,
    convertedValue := none, encryptedValue := none,
    finalValue := getFinalValue val (extractValueWithBrackets val).2.2 none none
      (mergedFlags pf (extractValueWithBrackets val).2.1)
      (determineParameterType (jsOrStr (extractValueWithBrackets val).2.2 val)
        (mergedFlags pf (extractValueWithBrackets val).2.1))
      .PARAMETER,
    processingMode := .PARAMETER }

/-- The nested-recursion guard of `parseRecursive`:
`extractedValue && extractedValue.includes('=') && !flags.literal`. -/
def nestedRecursionGuard (val : Str) : Bool :=
  optTruthy (extractValueWithBrackets val).2.2 &&
    ((extractValueWithBrackets val).2.2.getD []).contains '=' &&
    !(extractValueWithBrackets val).2.1.literal

/-- Body of the `pairs.forEach` of `parseRecursive` in
`src/parsers/queryParser.ts`: the entries contributed by one
depth-zero-split piece.  `recur` is the recursive call used for nested
`key={k2=v2}` structures. -/
def pairEntriesAux (recur : ParameterFlags → Str → List ParsedQuery)
    (parentFlags : ParameterFlags) (pair : Str) : List ParsedQuery :=
  match pair.findIdx? (fun c => c = '=') with
  | none => []
  | some eqIdx =>
    if (pair.take eqIdx).isEmpty then []
    else if detectProcessingMode (pair.drop (eqIdx + 1)) = .SUBSTITUTION then
      [subQueryEntry parentFlags (pair.take eqIdx) (pair.drop (eqIdx + 1))]
    else
      paramQueryEntry parentFlags (pair.take eqIdx) (pair.drop (eqIdx + 1)) ::
        (if nestedRecursionGuard (pair.drop (eqIdx + 1)) then
          recur
            (mergedFlags parentFlags
              (extractValueWithBrackets (pair.drop (eqIdx + 1))).2.1)
            ((extractValueWithBrackets (pair.drop (eqIdx + 1))).2.2.getD [])
        else [])

/-- `parseRecursive` from `src/parsers/queryParser.ts`, with a fuel
argument bounding the nesting depth (the extracted value recursed on is
always strictly shorter than the content, so `length + 1` fuel always
suffices). -/
def parseQueryRec : Nat → ParameterFlags → Str → List ParsedQuery
  | 0, _, _ => []
  | fuel + 1, parentFlags, content =>
    (smartSplitQuery content).flatMap
      (pairEntriesAux (parseQueryRec fuel) parentFlags)

/-- The entries contributed by one piece, at a given fuel. -/
def pairEntries (fuel : Nat) (parentFlags : ParameterFlags) (pair : Str) :
    List ParsedQuery :=
  pairEntriesAux (parseQueryRec fuel) parentFlags pair

/-- `parseQueryValue` from `src/parsers/queryParser.ts`. -/
def parseQueryValue (value : Str) (globalFlags : ParameterFlags) :
    List ParsedQuery :=
  parseQueryRec (value.length + 1) globalFlags value

/-- The Global Query Entry built by `parseQueryString` when the whole
query matches the global wrapper with non-trivial flags. -/
def globalQueryEntry (query : Str) : GlobalParsedQuery :=
  { key := "__GLOBAL__".toList, value := query,
    originalValue := query, flags := (parseNestedStructure query).2.1,
    type := .GLOBAL, extractedValue := some (parseNestedStructure query).2.2,
    convertedValue := none, encryptedValue := none,
    finalValue := query, processingMode := .SUBSTITUTION,
    innerResults := parseQueryValue (parseNestedStructure query).2.2
      (parseNestedStructure query).2.1 }

/-- `parseQueryString` from `src/parsers/queryParser.ts`. -/
def parseQueryString (query : Str) : List QueryItem :=
  if query.isEmpty then []
  else
    if (parseNestedStructure query).2.1.encrypted ||
        (parseNestedStructure query).2.1.required ||
        (parseNestedStructure query).2.1.literal then
      [.global (globalQueryEntry query)]
    else (parseQueryValue query noFlags).map .plain

/-- `ParsedSegment` from `src/types/parser.types.ts`. -/
structure ParsedSegment where
  segment : Str
  originalValue : Str
  flags : ParameterFlags
  type : ParameterType
  extractedValue : Option Str
  convertedValue : Option Str
  encryptedValue : Option Str
  finalValue : Str
  processingMode : ProcessingMode
deriving DecidableEq, Repr

/-- The SUBSTITUTION-mode segment entry built by `parseUrlSegments`. -/
def subSegmentEntry (segment : Str) : ParsedSegment :=
  { segment := segment, originalValue := segment,
    flags := (extractValueWithBrackets segment).2.1,
    type := .UNKNOWN, extractedValue := some segment,
    convertedValue := none, encryptedValue := none,
    finalValue := segment, processingMode := .SUBSTITUTION }

/-- The PARAMETER-mode segment entry built by `parseUrlSegments`. -/
def paramSegmentEntry (segment : Str) : ParsedSegment :=
  { segment := segment, originalValue := segment,
    flags := (extractValueWithBrackets segment).2.1,
    type := determineParameterType
      (jsOrStr (extractValueWithBrackets segment).2.2 segment)
      (extractValueWithBrackets segment).2.1,
    extractedValue := (extractValueWithBrackets segment).2.2,
    convertedValue := none, encryptedValue := none,
    finalValue := getFinalValue segment (extractValueWithBrackets segment).2.2
      none none (extractValueWithBrackets segment).2.1
      (determineParameterType
        (jsOrStr (extractValueWithBrackets segment).2.2 segment)
        (extractValueWithBrackets segment).2.1)
      .PARAMETER,
    processingMode := .PARAMETER }

/-- JavaScript `String.split(sep)`: split at every occurrence of the
separator, keeping empty pieces. -/
def splitChar (sep : Char) : Str → List Str
  | [] => [[]]
  | c :: rest =>
    if c = sep then [] :: splitChar sep rest
    else
      match splitChar sep rest with
      | [] => [[c]]
      | p :: ps => (c :: p) :: ps

/-- `parseUrlSegments` from `src/parsers/urlParser.ts`. -/
def parseUrlSegments (path : Str) : List ParsedSegment :=
  if path.isEmpty then []
  else
    ((splitChar '/' path).filter (fun seg => !seg.isEmpty)).map (fun segment =>
      if detectProcessingMode segment = .SUBSTITUTION then
        subSegmentEntry segment
      else
        paramSegmentEntry segment)

/-- The category resolver (`typeConverter`) collaborator: a pure function
whose `none` result models a rejected promise. -/
abbrev TypeConverter := Str → ParameterType → Option Str

/-- The obfuscator (`encryptor`) collaborator. -/
abbrev Encryptor := Str → Option Str

/-- The failure reasons set by `processSubstitution`'s trace step, as tags
for the three message strings of the source. -/
inductive FailureReason where
  | unknownType (target : Str)
  | noTypeConverter
  | noEncryptor
deriving DecidableEq, Repr

/-- The record passed to `onInnerTrace` by `processSubstitution`. -/
structure InnerTrace where
  type : ParameterType
  target : Str
  convertedValue : Option Str
  encryptedValue : Option Str
  result : Str
  flags : ParameterFlags
  transformationSuccess : Bool
  failureReason : Option FailureReason
deriving DecidableEq, Repr

/-- The backward flag scan of `processSubstitution`: from position `i`
(an opening brace found with an empty stack), walk left over contiguous
flag letters; the flag region starts right after the first non-flag
character. -/
def flagStartAt (s : Str) (i : Nat) : Nat :=
  i - ((s.take i).reverse.takeWhile isFlagChar).length

/-- One full left-to-right scan of `processNestedBrackets`: maintain a
stack of `(position, flagStart)` for opening braces, recompute the flag
start only when the stack is empty, and stop at the first closing brace
that empties the stack, returning `(flagStart, openIndex, closeIndex)`
of the completed group. -/
def scanAux (s : Str) : Str → Nat → List (Nat × Nat) → Nat →
    Option (Nat × Nat × Nat)
  | [], _, _, _ => none
  | c :: rest, i, stack, fsVar =>
    if c = '{' then
      scanAux s rest (i + 1)
        ((i, if stack.isEmpty then flagStartAt s i else fsVar) :: stack)
        (if stack.isEmpty then flagStartAt s i else fsVar)
    else if c = '}' then
      match stack with
      | [] => scanAux s rest (i + 1) [] fsVar
      | (openIdx, fs0) :: stack' =>
        if stack'.isEmpty then some (fs0, openIdx, i)
        else scanAux s rest (i + 1) stack' fsVar
    else scanAux s rest (i + 1) stack fsVar

/-- The scan applied to the whole string. -/
def scanStep (s : Str) : Option (Nat × Nat × Nat) := scanAux s s 0 [] 0

/-- `processed.substring(openBrace.index + 1, i)`: the bracket interior. -/
def groupExtracted (s : Str) (openIdx closeIdx : Nat) : Str :=
  (s.take closeIdx).drop (openIdx + 1)

/-- `processed.substring(fullStart, openBrace.index)`: the flag region. -/
def groupFlagString (s : Str) (fs openIdx : Nat) : Str :=
  (s.take openIdx).drop fs

/-- Step 1 of the group resolution: the type conversion, run only without
a literal flag, with a converter present, on category A or B. -/
def groupConverted (extracted : Str) (flags : ParameterFlags)
    (conv : Option TypeConverter) : Option Str :=
  match conv with
  | some f =>
    if !flags.literal &&
        (determineParameterType extracted flags == ParameterType.A ||
          determineParameterType extracted flags == ParameterType.B) then
      f extracted (determineParameterType extracted flags)
    else none
  | none => none

/-- Step 2: the encryption, run when the `e` flag is set, an encryptor is
present and the value to encrypt (`convertedValue || (literal ?
extractedValue : null)`) is truthy. -/
def groupEncrypted (extracted : Str) (flags : ParameterFlags)
    (converted : Option Str) (enc : Option Encryptor) : Option Str :=
  match enc with
  | some g =>
    if flags.encrypted &&
        optTruthy (jsOrOpt converted
          (if flags.literal then some extracted else none)) then
      g ((jsOrOpt converted
          (if flags.literal then some extracted else none)).getD [])
    else none
  | none => none

/-- Step 3: the final value of a substitution group — the truthy chain
encrypted / converted / literal extracted / empty. -/
def groupFinal (extracted : Str) (flags : ParameterFlags)
    (converted encrypted : Option Str) : Str :=
  if optTruthy encrypted then encrypted.getD []
  else if optTruthy converted then converted.getD []
  else if flags.literal then extracted
  else []

/-- Step 4: the trace record emitted for one group. -/
def groupTrace (extracted : Str) (flags : ParameterFlags)
    (converted encrypted : Option Str) (finalValue : Str)
    (conv : Option TypeConverter) (enc : Option Encryptor) : InnerTrace :=
  { type := determineParameterType extracted flags
    target := extracted
    convertedValue := converted
    encryptedValue := encrypted
    result := finalValue
    flags := flags
    transformationSuccess :=
      (extracted != finalValue) ||
        (converted.isSome && converted != some extracted) ||
        encrypted.isSome || flags.literal
    failureReason :=
      if flags.encrypted && !optTruthy encrypted && enc.isNone then
        some .noEncryptor
      else if !(converted.isSome && converted != some extracted) &&
          determineParameterType extracted flags ≠ .LITERAL &&
          !flags.literal then
        (if determineParameterType extracted flags = .UNKNOWN then
          some (.unknownType extracted)
        else if conv.isNone then some .noTypeConverter
        else none)
      else none }

/-- Resolution of one completed group: final spliced value and trace. -/
def resolveGroup (s : Str) (fs openIdx closeIdx : Nat)
    (conv : Option TypeConverter) (enc : Option Encryptor) :
    Str × InnerTrace :=
  (groupFinal (groupExtracted s openIdx closeIdx)
    (parseFlags (groupFlagString s fs openIdx))
    (groupConverted (groupExtracted s openIdx closeIdx)
      (parseFlags (groupFlagString s fs openIdx)) conv)
    (groupEncrypted (groupExtracted s openIdx closeIdx)
      (parseFlags (groupFlagString s fs openIdx))
      (groupConverted (groupExtracted s openIdx closeIdx)
        (parseFlags (groupFlagString s fs openIdx)) conv) enc),
   groupTrace (groupExtracted s openIdx closeIdx)
    (parseFlags (groupFlagString s fs openIdx))
    (groupConverted (groupExtracted s openIdx closeIdx)
      (parseFlags (groupFlagString s fs openIdx)) conv)
    (groupEncrypted (groupExtracted s openIdx closeIdx)
      (parseFlags (groupFlagString s fs openIdx))
      (groupConverted (groupExtracted s openIdx closeIdx)
        (parseFlags (groupFlagString s fs openIdx)) conv) enc)
    (groupFinal (groupExtracted s openIdx closeIdx)
      (parseFlags (groupFlagString s fs openIdx))
      (groupConverted (groupExtracted s openIdx closeIdx)
        (parseFlags (groupFlagString s fs openIdx)) conv)
      (groupEncrypted (groupExtracted s openIdx closeIdx)
        (parseFlags (groupFlagString s fs openIdx))
        (groupConverted (groupExtracted s openIdx closeIdx)
          (parseFlags (groupFlagString s fs openIdx)) conv) enc))
    conv enc)

/-- The splice of step 5: replace `s[fs, e)` by the final value. -/
def spliceAt (s : Str) (fs e : Nat) (finalValue : Str) : Str :=
  s.take fs ++ finalValue ++ s.drop e

/-- Number of opening braces (the termination measure of the engine). -/
def countLBrace (s : Str) : Nat := s.count '{'

/-- Both brace characters absent. -/
def braceFree (s : Str) : Bool := s.all (fun c => !isBrace c)

/-- The `while (hasChanges)` loop of `processNestedBrackets`: rescan
after every splice, stop when a scan finds no completable group.  The
fuel argument returns `none` if exhausted; the termination theorem shows
`countLBrace + 1` always suffices when collaborator outputs are
brace-free. -/
def processLoop (conv : Option TypeConverter) (enc : Option Encryptor) :
    Nat → Str → List InnerTrace → Option (Str × List InnerTrace)
  | 0, _, _ => none
  | fuel + 1, s, traces =>
    match scanStep s with
    | none => some (s, traces)
    | some (fs, openIdx, closeIdx) =>
      processLoop conv enc fuel
        (spliceAt s fs (closeIdx + 1)
          (resolveGroup s fs openIdx closeIdx conv enc).1)
        (traces ++ [(resolveGroup s fs openIdx closeIdx conv enc).2])

/-- `processSubstitution` from `src/utils/parser.utils.ts`: the trace
callback is modelled by returning the list of emitted traces. -/
def processSubstitution (content : Str) (conv : Option TypeConverter)
    (enc : Option Encryptor) : Option (Str × List InnerTrace) :=
  processLoop conv enc (countLBrace content + 1) content []

/-- Claim C1's residual property, conservatively witnessed: the string
contains a substring `{content}` whose content is non-empty and
brace-free — a well-formed bracket group with (empty) flags and matched
braces.  Any string containing a matched `flags{content}` group contains
such an innermost pair. -/
def innerClosed : Str → Bool
  | [] => false
  | c :: rest =>
    if isBrace c then false
    else
      match rest with
      | '}' :: _ => true
      | _ => innerClosed rest

/-- Some `{` immediately opening an innermost well-formed group. -/
def containsWellFormedGroup : Str → Bool
  | [] => false
  | c :: rest => (c = '{' && innerClosed rest) || containsWellFormedGroup rest

/-- Invariant of the bracket scan: the bottom stack entry — the only one
whose `flagStart` is ever used, since a group completes exactly when the
stack empties — records an opening brace before position `i` whose flag
region consists of flag letters. -/
def ScanInv (s : Str) (i : Nat) (stack : List (Nat × Nat)) : Prop :=
  ∀ o f, stack.getLast? = some (o, f) →
    o < i ∧ o < s.length ∧ s[o]? = some '{' ∧ f ≤ o ∧
      ((s.take o).drop f).all isFlagChar

/-- The invariant claim C6 can actually maintain (amended): in PARAMETER
mode a literal flag forces category Literal, while SUBSTITUTION-mode
entries always carry category Unknown. -/
def literalTypeOK (flags : ParameterFlags) (type : ParameterType)
    (mode : ProcessingMode) : Prop :=
  (mode = .PARAMETER → flags.literal = true → type = .LITERAL) ∧
  (mode = .SUBSTITUTION → type = .UNKNOWN)

/-! ### Transform service (`src/services/transformService.ts`)

`transformParameter` is generic over the shared `ParsedParameter` shape; it
is embedded monomorphically for query entries and for segments. -/

/-- `handleParameterMode` for a query entry. -/
def handleParameterModeQ (p : ParsedQuery) (conv : Option TypeConverter) :
    Option Str :=
  if optTruthy p.extractedValue && !p.flags.literal then
    match conv with
    | some f =>
      if p.type ≠ .UNKNOWN ∧ p.type ≠ .LITERAL then
        f (p.extractedValue.getD []) p.type
      else none
    | none => none
  else none

/-- `handleEncryption` for a query entry. -/
def handleEncryptionQ (p : ParsedQuery) (converted : Option Str)
    (enc : Option Encryptor) : Option Str :=
  match enc with
  | none => none
  | some g =>
    if !p.flags.encrypted then none
    else if optTruthy (jsOrOpt converted
        (if p.flags.literal then p.extractedValue else none)) then
      g ((jsOrOpt converted
        (if p.flags.literal then p.extractedValue else none)).getD [])
    else none

/-- `transformParameter` for a query entry (getFinalValue is always
called with PARAMETER mode by the source). -/
def transformParameterQ (p : ParsedQuery) (conv : Option TypeConverter)
    (enc : Option Encryptor) : Option (ParsedQuery × List InnerTrace) :=
  match (if p.processingMode = .SUBSTITUTION then
      (processSubstitution (jsOrStr p.extractedValue p.originalValue)
        conv enc).map (fun r => (some r.1, r.2))
    else some (handleParameterModeQ p conv, [])) with
  | none => none
  | some (converted, trs) =>
    some ({ p with
            convertedValue := converted
            encryptedValue := handleEncryptionQ p converted enc
            finalValue := getFinalValue p.originalValue p.extractedValue
              converted (handleEncryptionQ p converted enc) p.flags p.type
              .PARAMETER },
          trs)

/-- `handleParameterMode` for a segment. -/
def handleParameterModeSeg (p : ParsedSegment) (conv : Option TypeConverter) :
    Option Str :=
  if optTruthy p.extractedValue && !p.flags.literal then
    match conv with
    | some f =>
      if p.type ≠ .UNKNOWN ∧ p.type ≠ .LITERAL then
        f (p.extractedValue.getD []) p.type
      else none
    | none => none
  else none

/-- `handleEncryption` for a segment. -/
def handleEncryptionSeg (p : ParsedSegment) (converted : Option Str)
    (enc : Option Encryptor) : Option Str :=
  match enc with
  | none => none
  | some g =>
    if !p.flags.encrypted then none
    else if optTruthy (jsOrOpt converted
        (if p.flags.literal then p.extractedValue else none)) then
      g ((jsOrOpt converted
        (if p.flags.literal then p.extractedValue else none)).getD [])
    else none

/-- `transformParameter` for a segment. -/
def transformParameterSeg (p : ParsedSegment) (conv : Option TypeConverter)
    (enc : Option Encryptor) : Option (ParsedSegment × List InnerTrace) :=
  match (if p.processingMode = .SUBSTITUTION then
      (processSubstitution (jsOrStr p.extractedValue p.originalValue)
        conv enc).map (fun r => (some r.1, r.2))
    else some (handleParameterModeSeg p conv, [])) with
  | none => none
  | some (converted, trs) =>
    some ({ p with
            convertedValue := converted
            encryptedValue := handleEncryptionSeg p converted enc
            finalValue := getFinalValue p.originalValue p.extractedValue
              converted (handleEncryptionSeg p converted enc) p.flags p.type
              .PARAMETER },
          trs)

/-- `handleSegmentSubstitution`. -/
def handleSegmentSubstitution (seg : ParsedSegment)
    (conv : Option TypeConverter) (enc : Option Encryptor) :
    Option (ParsedSegment × List InnerTrace) :=
  match processSubstitution (jsOrStr seg.extractedValue seg.originalValue)
      conv enc with
  | none => none
  | some (sub, trs) =>
    some ({ seg with
            convertedValue := some sub
            encryptedValue := handleEncryptionSeg seg (some sub) enc
            finalValue := jsOrStr (handleEncryptionSeg seg (some sub) enc) sub },
          trs)

/-- `handleQuerySubstitution`. -/
def handleQuerySubstitution (q : ParsedQuery)
    (conv : Option TypeConverter) (enc : Option Encryptor) :
    Option (ParsedQuery × List InnerTrace) :=
  match processSubstitution (jsOrStr q.extractedValue q.originalValue)
      conv enc with
  | none => none
  | some (sub, trs) =>
    some ({ q with
            convertedValue := some sub
            encryptedValue := handleEncryptionQ q (some sub) enc
            finalValue := jsOrStr (handleEncryptionQ q (some sub) enc) sub },
          trs)

/-- Location tag of a trace (`'url' | 'query'`). -/
inductive TraceLocation where
  | url
  | query
deriving DecidableEq, Repr

/-- An inner trace together with the location/identifier arguments passed
to `onInnerTrace` by the transform service. -/
structure TaggedTrace where
  trace : InnerTrace
  location : TraceLocation
  identifier : Str
deriving DecidableEq, Repr

/-- Join `key=value` strings with `&`. -/
def joinAmp : List Str → Str
  | [] => []
  | [x] => x
  | x :: y :: xs => x ++ '&' :: joinAmp (y :: xs)

/-- Join segments with `/`. -/
def joinSlash : List Str → Str
  | [] => []
  | [x] => x
  | x :: y :: xs => x ++ '/' :: joinSlash (y :: xs)

/-- The reassembly of `processGlobalQuery`: inner entries with truthy
final values as `key=value` pairs joined by `&`. -/
def reassembleGlobal (qs : List ParsedQuery) : Str :=
  joinAmp ((qs.filter (fun q => strTruthy q.finalValue)).map
    (fun q => q.key ++ '=' :: q.finalValue))

/-- Transform the inner results of a global query, tagging inner traces
with `__GLOBAL__.<key>`. -/
def transformGlobalInners (conv : Option TypeConverter)
    (enc : Option Encryptor) :
    List ParsedQuery → Option (List ParsedQuery × List TaggedTrace)
  | [] => some ([], [])
  | q :: rest =>
    match transformParameterQ q conv enc with
    | none => none
    | some (q', trs) =>
      match transformGlobalInners conv enc rest with
      | none => none
      | some (rest', trs') =>
        some (q' :: rest',
          trs.map (fun t =>
            ⟨t, .query, "__GLOBAL__.".toList ++ q.key⟩) ++ trs')

/-- `processGlobalQuery` from `src/services/transformService.ts`: the
inner entries are transformed individually and reassembled; the entry's
`encryptedValue` is left null and its `finalValue` is the reassembled
content — the global encryption is deferred to `getReconstructedUrl`. -/
def processGlobalQueryT (g : GlobalParsedQuery)
    (conv : Option TypeConverter) (enc : Option Encryptor) :
    Option (GlobalParsedQuery × List TaggedTrace) :=
  match transformGlobalInners conv enc g.innerResults with
  | none => none
  | some (transformed, trs) =>
    some ({ g with
            convertedValue := some (reassembleGlobal transformed)
            encryptedValue := none
            finalValue := reassembleGlobal transformed
            innerResults := transformed },
          trs)

/-- `transformQueries` dispatch for one entry. -/
def transformQueryItem (conv : Option TypeConverter) (enc : Option Encryptor)
    (item : QueryItem) : Option (QueryItem × List TaggedTrace) :=
  match item with
  | .global g =>
    (processGlobalQueryT g conv enc).map (fun r => (.global r.1, r.2))
  | .plain q =>
    if q.processingMode = .SUBSTITUTION then
      (handleQuerySubstitution q conv enc).map (fun r =>
        (.plain r.1, r.2.map (fun t => ⟨t, .query, q.key⟩)))
    else
      (transformParameterQ q conv enc).map (fun r =>
        (.plain r.1, r.2.map (fun t => ⟨t, .query, q.key⟩)))

/-- `transformQueries`. -/
def transformQueries (conv : Option TypeConverter) (enc : Option Encryptor) :
    List QueryItem → Option (List QueryItem × List TaggedTrace)
  | [] => some ([], [])
  | item :: rest =>
    match transformQueryItem conv enc item with
    | none => none
    | some (item', trs) =>
      match transformQueries conv enc rest with
      | none => none
      | some (rest', trs') => some (item' :: rest', trs ++ trs')

/-- The segment identifier `segment-${index}`. -/
def segIdent (i : Nat) : Str := ("segment-" ++ toString i).toList

/-- `transformSegments` (with the running index of the map). -/
def transformSegmentsAux (conv : Option TypeConverter)
    (enc : Option Encryptor) :
    Nat → List ParsedSegment → Option (List ParsedSegment × List TaggedTrace)
  | _, [] => some ([], [])
  | i, seg :: rest =>
    match (if seg.processingMode = .SUBSTITUTION then
        handleSegmentSubstitution seg conv enc
      else transformParameterSeg seg conv enc) with
    | none => none
    | some (seg', trs) =>
      match transformSegmentsAux conv enc (i + 1) rest with
      | none => none
      | some (rest', trs') =>
        some (seg' :: rest',
          trs.map (fun t => ⟨t, .url, segIdent i⟩) ++ trs')

/-- `transformSegments`. -/
def transformSegments (conv : Option TypeConverter) (enc : Option Encryptor)
    (segs : List ParsedSegment) :
    Option (List ParsedSegment × List TaggedTrace) :=
  transformSegmentsAux conv enc 0 segs

/-! ### Hook layer (`useParseState` in `src/hooks/useUrlQueryParser.ts`) -/

/-- `TransformationTrace` from `src/types/parser.types.ts`. -/
structure TransformationTrace where
  type : ParameterType
  target : Str
  convertedValue : Option Str
  encryptedValue : Option Str
  result : Str
  location : TraceLocation
  identifier : Str
  flags : ParameterFlags
  processingMode : ProcessingMode
  transformationSuccess : Bool
  failureReason : Option FailureReason
deriving DecidableEq, Repr

/-- The `onInnerTrace` callback of `parseAndTransformUrl`: suffix the
identifier with `.inner.<target>` and force SUBSTITUTION mode. -/
def innerTraceToTransformation (t : TaggedTrace) : TransformationTrace :=
  { type := t.trace.type, target := t.trace.target,
    convertedValue := t.trace.convertedValue,
    encryptedValue := t.trace.encryptedValue,
    result := t.trace.result, location := t.location,
    identifier := t.identifier ++ ".inner.".toList ++ t.trace.target,
    flags := t.trace.flags, processingMode := .SUBSTITUTION,
    transformationSuccess := t.trace.transformationSuccess,
    failureReason := t.trace.failureReason }

/-- `createTransformationTrace` of the hook, over the shared item
fields. -/
def createTransformationTraceFields (type : ParameterType)
    (extracted converted encrypted : Option Str) (finalValue : Str)
    (flags : ParameterFlags) (mode : ProcessingMode)
    (location : TraceLocation) (identifier : Str) : TransformationTrace :=
  { type := type, target := extracted.getD [],
    convertedValue := converted, encryptedValue := encrypted,
    result := finalValue, location := location, identifier := identifier,
    flags := flags, processingMode := mode,
    transformationSuccess :=
      decide (extracted ≠ some finalValue) ||
        (converted.isSome && converted != extracted) ||
        encrypted.isSome || flags.literal,
    failureReason :=
      if !(converted.isSome && converted != extracted) &&
          type ≠ .LITERAL && !flags.literal then
        (if type = .UNKNOWN then some (.unknownType (extracted.getD []))
         else some .noTypeConverter)
      else none }

/-- The hook's per-query-entry trace. -/
def createTraceQ (q : ParsedQuery) (location : TraceLocation)
    (identifier : Str) : TransformationTrace :=
  createTransformationTraceFields q.type q.extractedValue q.convertedValue
    q.encryptedValue q.finalValue q.flags q.processingMode location identifier

/-- The hook's per-segment trace. -/
def createTraceSeg (seg : ParsedSegment) (location : TraceLocation)
    (identifier : Str) : TransformationTrace :=
  createTransformationTraceFields seg.type seg.extractedValue
    seg.convertedValue seg.encryptedValue seg.finalValue seg.flags
    seg.processingMode location identifier

/-- The trace emitted for the global wrapper entry itself. -/
def globalWrapperTrace (g : GlobalParsedQuery) : TransformationTrace :=
  { type := .GLOBAL, target := g.convertedValue.getD [],
    convertedValue := g.convertedValue, encryptedValue := g.encryptedValue,
    result := g.finalValue, location := .query,
    identifier := "__GLOBAL__".toList, flags := g.flags,
    processingMode := .SUBSTITUTION,
    transformationSuccess := g.encryptedValue.isSome,
    failureReason :=
      if g.encryptedValue = none ∧ g.flags.encrypted then some .noEncryptor
      else none }

/-- `collectTransformationTraces`. -/
def collectTransformationTraces (segs : List ParsedSegment)
    (items : List QueryItem) (existing : List TransformationTrace) :
    List TransformationTrace :=
  existing ++
    (segs.enum.filterMap (fun p =>
      if optTruthy p.2.extractedValue then
        some (createTraceSeg p.2 .url (segIdent p.1))
      else none)) ++
    items.flatMap (fun item =>
      match item with
      | .plain q =>
        if optTruthy q.extractedValue then [createTraceQ q .query q.key]
        else []
      | .global g =>
        (g.innerResults.filterMap (fun inner =>
          if optTruthy inner.extractedValue then
            some (createTraceQ inner .query (g.key ++ '.' :: inner.key))
          else none)) ++
        (if g.key = "__GLOBAL__".toList ∧ optTruthy g.convertedValue then
          [globalWrapperTrace g]
        else []))

/-- The character class `[a-zA-Z0-9+.-]` of the protocol regex. -/
def isProtoChar (ch : Char) : Bool :=
  ch.isAlpha || ch.isDigit || ch = '+' || ch = '.' || ch = '-'

/-- The protocol match `^([a-zA-Z][a-zA-Z0-9+.-]*):\/\//`: protocol name
and the remainder after `://`. -/
def protocolSplit (s : Str) : Option (Str × Str) :=
  match s with
  | [] => none
  | c :: rest =>
    if c.isAlpha then
      match rest.dropWhile isProtoChar with
      | ':' :: '/' :: '/' :: tail =>
        some (c :: rest.takeWhile isProtoChar, tail)
      | _ => none
    else none

/-- Host/path/query separation when a `/` occurs before any `?`. -/
def mkHostPath (proto afterProtocol : Str) (ps : Nat) :
    Str × Str × Str × Str :=
  match (afterProtocol.drop ps).findIdx? (fun c => c = '?') with
  | none => (proto, afterProtocol.take ps, afterProtocol.drop ps, [])
  | some qip => (proto, afterProtocol.take ps,
      (afterProtocol.drop ps).take qip,
      (afterProtocol.drop ps).drop (qip + 1))

/-- `parseUrlComponents` from `src/utils/parser.utils.ts`:
(protocol, host, path, query). -/
def parseUrlComponents (urlString : Str) : Str × Str × Str × Str :=
  match protocolSplit urlString with
  | none =>
    match urlString.findIdx? (fun c => c = '?') with
    | none => ([], [], urlString, [])
    | some qi => ([], [], urlString.take qi, urlString.drop (qi + 1))
  | some (proto, afterProtocol) =>
    match afterProtocol.findIdx? (fun c => c = '/'),
        afterProtocol.findIdx? (fun c => c = '?') with
    | none, none => (proto, afterProtocol, [], [])
    | none, some qs => (proto, afterProtocol.take qs, [],
        afterProtocol.drop (qs + 1))
    | some ps, some qs =>
      if qs < ps then
        (proto, afterProtocol.take qs, [], afterProtocol.drop (qs + 1))
      else mkHostPath proto afterProtocol ps
    | some ps, none => mkHostPath proto afterProtocol ps

/-- `ParseResult` from `src/types/parser.types.ts`. -/
structure ParseResult where
  baseUrl : Str
  reconstructedPath : Str
  url : List ParsedSegment
  query : List QueryItem
  transformationTraces : List TransformationTrace
deriving DecidableEq, Repr

/-- `parseAndTransformUrl` followed by the trace collection and path
reconstruction of `updateParseResult` with `applyTransform = true`. -/
def updateParseResultT (urlString : Str) (conv : Option TypeConverter)
    (enc : Option Encryptor) : Option ParseResult :=
  match parseUrlComponents urlString with
  | (proto, host, path, query) =>
    match transformSegments conv enc (parseUrlSegments path) with
    | none => none
    | some (segs, segTraces) =>
      match transformQueries conv enc (parseQueryString query) with
      | none => none
      | some (queries, qTraces) =>
        some { baseUrl :=
                 if !proto.isEmpty && !host.isEmpty then
                   proto ++ "://".toList ++ host
                 else [],
               reconstructedPath :=
                 if (joinSlash (segs.map (fun seg => seg.finalValue))).isEmpty
                 then []
                 else '/' :: joinSlash (segs.map (fun seg => seg.finalValue)),
               url := segs, query := queries,
               transformationTraces :=
                 collectTransformationTraces segs queries
                   ((segTraces ++ qTraces).map innerTraceToTransformation) }

/-- Substring search (JavaScript `includes`). -/
def containsSub (needle : Str) : Str → Bool
  | [] => needle.isEmpty
  | c :: rest => List.isPrefixOf needle (c :: rest) || containsSub needle rest

/-- The STRICT-mode invalid result patterns: `@@@@` anywhere, `@@` at the
end, or a blank trim. -/
def hasInvalidPatterns (s : Str) : Bool :=
  containsSub ("@@@@".toList) s || List.isSuffixOf ("@@".toList) s ||
    s.all (fun c => c.isWhitespace)

/-- Trace relevance: the identifier starts with the given prefix text. -/
def relatedTraceP (pre : Str) (t : TransformationTrace) : Bool :=
  List.isPrefixOf pre t.identifier

/-- `shouldIncludeQueryInStrict` from `src/hooks/useUrlQueryParser.ts`. -/
def shouldIncludeQueryInStrict (q : ParsedQuery)
    (traces : List TransformationTrace) : Bool :=
  if q.flags.literal ||
      (!(q.originalValue.contains '{') || !(q.originalValue.contains '}')) then
    true
  else if q.processingMode = .SUBSTITUTION then
    !(traces.filter (relatedTraceP (q.key ++ ".inner.".toList))).any
        (fun t => !t.flags.literal && decide (t.type ≠ .UNKNOWN)) &&
      !(traces.filter (relatedTraceP (q.key ++ ".inner.".toList))).any
        (fun t => !t.transformationSuccess) &&
      !(q.finalValue.contains '{' && q.finalValue.contains '}') &&
      !hasInvalidPatterns q.finalValue
  else false

/-- `filterGlobalQueryForStrict`. -/
def filterGlobalQueryForStrict (g : GlobalParsedQuery)
    (traces : List TransformationTrace) : List ParsedQuery :=
  g.innerResults.filter (fun inner =>
    inner.flags.literal ||
      (!(inner.originalValue.contains '{') ||
        !(inner.originalValue.contains '}')) ||
      (inner.processingMode = .SUBSTITUTION &&
        !(traces.filter (relatedTraceP
            ("__GLOBAL__.".toList ++ inner.key ++ ".inner.".toList))).any
            (fun t => !t.flags.literal && decide (t.type ≠ .UNKNOWN)) &&
        !(traces.filter (relatedTraceP
            ("__GLOBAL__.".toList ++ inner.key ++ ".inner.".toList))).any
            (fun t => !t.transformationSuccess)))

/-- The `[ENCRYPT:...]` marker emitted for encrypted global queries (the
actual obfuscation happens later in `encryptGlobalQueries`). -/
def wrapEncrypt (e : Bool) (content : Str) : Str :=
  if e then "[ENCRYPT:".toList ++ content ++ [']'] else content

/-- `processGlobalQuery` of the hook (the reconstruction-side one). -/
def hookProcessGlobalQuery (g : GlobalParsedQuery)
    (traces : List TransformationTrace) (mode : FilteringMode) :
    Option Str :=
  if mode = .STRICT then
    if (filterGlobalQueryForStrict g traces).length > 0 then
      some (wrapEncrypt g.flags.encrypted
        (joinAmp ((filterGlobalQueryForStrict g traces).map
          (fun inner => inner.key ++ '=' :: inner.finalValue))))
    else none
  else
    if strTruthy (reassembleGlobal g.innerResults) then
      some (wrapEncrypt g.flags.encrypted (reassembleGlobal g.innerResults))
    else none

/-- `processRegularQuery`. -/
def processRegularQuery (q : ParsedQuery)
    (traces : List TransformationTrace) (mode : FilteringMode) :
    Option Str :=
  if mode = .STRICT then
    if shouldIncludeQueryInStrict q traces then
      some (q.key ++ '=' :: q.finalValue)
    else none
  else
    if isValidValue q.type q.extractedValue q.convertedValue q.flags
        q.processingMode then
      some (q.key ++ '=' :: q.finalValue)
    else none

/-- The per-item contribution to the query-string reassembly of
`getReconstructedUrl`: the processed part, kept only when truthy. -/
def queryPart (traces : List TransformationTrace) (mode : FilteringMode)
    (item : QueryItem) : Option Str :=
  match (match item with
    | .global g => hookProcessGlobalQuery g traces mode
    | .plain q => processRegularQuery q traces mode) with
  | some part => if strTruthy part then some part else none
  | none => none

/-- `getReconstructedUrl` of the hook. -/
def getReconstructedUrl (pr : ParseResult) (mode : FilteringMode) : Str :=
  (fun queryString =>
    (if pr.baseUrl.isEmpty then [] else pr.baseUrl) ++
      (if pr.reconstructedPath.isEmpty then [] else pr.reconstructedPath) ++
      (if queryString.isEmpty then [] else '?' :: queryString))
  (joinAmp (pr.query.filterMap (queryPart pr.transformationTraces mode)))

/-- The depth-zero-split pieces that survive the query parser on a
brace-free query: pieces with an `=` and a non-empty key (used to state
the brace-free round trip of claim C8). -/
def keptPairs (q : Str) : List Str :=
  (smartSplitQuery q).filterMap (fun pair =>
    match pair.findIdx? (fun c => c = '=') with
    | none => none
    | some i => if (pair.take i).isEmpty then none else some pair)

/-- The piece with an `=` and a non-empty key — the keep-condition of the
query parser, as a Boolean on one piece. -/
def keptShape (k : Str) : Bool :=
  match k.findIdx? (fun c => c = '=') with
  | none => false
  | some i => !(k.take i).isEmpty

/-- Prefix the first piece of a split with a string (the pending `current`
accumulator of `smartSplitQuery`). -/
def consHead (c : Str) : List Str → List Str
  | [] => [c]
  | p :: ps => (c ++ p) :: ps

/-- Join pieces with a separator character (the common shape of `joinAmp`
and `joinSlash`). -/
def joinSep (sep : Char) : List Str → Str
  | [] => []
  | [x] => x
  | x :: y :: xs => x ++ sep :: joinSep sep (y :: xs)

/-- The non-empty `/`-separated pieces of a path — exactly the segments
`parseUrlSegments` keeps. -/
def urlPieces (path : Str) : List Str :=
  (splitChar '/' path).filter (fun p => !p.isEmpty)

/-- The STRICT reconstruction of a brace-free URL from its components:
base URL (when protocol and host are both non-empty), normalized path,
and the kept query pairs. -/
def strictAssemble (proto host : Str) (pieces kept : List Str) : Str :=
  (if proto.isEmpty || host.isEmpty then []
    else proto ++ "://".toList ++ host) ++
  (if (joinSlash pieces).isEmpty then [] else '/' :: joinSlash pieces) ++
  (if (joinAmp kept).isEmpty then [] else '?' :: joinAmp kept)

/-- The STRICT reconstruction computed from a URL string's components. -/
def strictAssembleOf (s : Str) : Str :=
  strictAssemble (parseUrlComponents s).1 (parseUrlComponents s).2.1
    (urlPieces (parseUrlComponents s).2.2.1)
    (keptPairs (parseUrlComponents s).2.2.2)

/-- The query entry the parser builds for a brace-free pair
`key=val`. -/
def bfParsed (key val : Str) : ParsedQuery :=
  { key := key, value := val, originalValue := val, flags := noFlags,
    type := .UNKNOWN, extractedValue := some val, convertedValue := none,
    encryptedValue := none, finalValue := val,
    processingMode := .SUBSTITUTION }

/-- The transformed query entry for a brace-free pair `key=val`. -/
def bfDone (key val : Str) : ParsedQuery :=
  { key := key, value := val, originalValue := val, flags := noFlags,
    type := .UNKNOWN, extractedValue := some val,
    convertedValue := some val, encryptedValue := none, finalValue := val,
    processingMode := .SUBSTITUTION }

/-- The segment entry the parser builds for a brace-free segment. -/
def bfSegParsed (p : Str) : ParsedSegment :=
  { segment := p, originalValue := p, flags := noFlags, type := .UNKNOWN,
    extractedValue := some p, convertedValue := none,
    encryptedValue := none, finalValue := p,
    processingMode := .SUBSTITUTION }

/-- The transformed segment entry for a brace-free segment. -/
def bfSegDone (p : Str) : ParsedSegment :=
  { segment := p, originalValue := p, flags := noFlags, type := .UNKNOWN,
    extractedValue := some p, convertedValue := some p,
    encryptedValue := none, finalValue := p,
    processingMode := .SUBSTITUTION }

/-- Full STRICT pipeline: parse & transform, then reconstruct under the
STRICT filtering mode (claim C8). -/
def pipelineStrict (urlString : Str) (conv : Option TypeConverter)
    (enc : Option Encryptor) : Option Str :=
  (updateParseResultT urlString conv enc).map
    (fun pr => getReconstructedUrl pr .STRICT)

/-- The transformed inner entry of the global query `e{a=b}` (used as a
concrete instance for the global-query theorems). -/
def c5Inner : ParsedQuery :=
  { key := "a".toList, value := "b".toList, originalValue := "b".toList,
    flags := noFlags, type := .UNKNOWN, extractedValue := some ("b".toList),
    convertedValue := some ("b".toList), encryptedValue := none,
    finalValue := "b".toList, processingMode := .SUBSTITUTION }

/-- The output entry `processGlobalQuery` produces for `e{a=b}` with no
collaborating converter and no obfuscation applied at this stage. -/
def c5Out : GlobalParsedQuery :=
  { key := "__GLOBAL__".toList, value := "e{a=b}".toList,
    originalValue := "e{a=b}".toList, flags := ⟨true, false, false⟩,
    type := .GLOBAL, extractedValue := some ("a=b".toList),
    convertedValue := some ("a=b".toList), encryptedValue := none,
    finalValue := "a=b".toList, processingMode := .SUBSTITUTION,
    innerResults := [c5Inner] }

section Theorems

/-! ### Helper lemmas -/

theorem takeWhile_append_of_all {p : Char → Bool} {l₁ : Str} (l₂ : Str)
    (h : l₁.all p) : (l₁ ++ l₂).takeWhile p = l₁ ++ l₂.takeWhile p := by
  induction l₁ with
  | nil => rfl
  | cons a t ih =>
    simp only [List.all_cons, Bool.and_eq_true] at h
    simp [List.takeWhile, h.1, ih h.2]

theorem dropWhile_append_of_all {p : Char → Bool} {l₁ : Str} (l₂ : Str)
    (h : l₁.all p) : (l₁ ++ l₂).dropWhile p = l₂.dropWhile p := by
  induction l₁ with
  | nil => rfl
  | cons a t ih =>
    simp only [List.all_cons, Bool.and_eq_true] at h
    simp [List.dropWhile, h.1, ih h.2]

theorem containsBracketRegion_of_no_open {c : Str}
    (h : c.all (fun ch => !isBrace ch)) : containsBracketRegion c = false := by
  induction c with
  | nil => rfl
  | cons a t ih =>
    simp only [List.all_cons, Bool.and_eq_true] at h
    have ha : ¬(a = '{') := by
      intro hcon
      rw [hcon] at h
      simp [isBrace] at h
    simp [containsBracketRegion, ha, ih h.2]

theorem dropWhile_flagShape {fl c : Str} (hall : fl.all isFlagChar) :
    (fl ++ '{' :: c).dropWhile isFlagChar = '{' :: c := by
  rw [dropWhile_append_of_all _ hall]
  simp [List.dropWhile, isFlagChar]

theorem takeWhile_flagShape {fl c : Str} (hall : fl.all isFlagChar) :
    (fl ++ '{' :: c).takeWhile isFlagChar = fl := by
  rw [takeWhile_append_of_all _ hall]
  simp [List.takeWhile, isFlagChar]

/-- Destructing a successful `^([erv]*)\{(.+)\}$` match. -/
theorem matchFlagBracket_eq_some {s fl c : Str}
    (h : matchFlagBracket s = some (fl, c)) :
    fl.all isFlagChar ∧ c ≠ [] ∧ c.all (fun ch => !isLineTerminator ch) ∧
      s = fl ++ '{' :: (c ++ ['}']) := by
  unfold matchFlagBracket at h
  split at h
  case h_2 => exact absurd h (by simp)
  case h_1 c0 rest hd =>
    split_ifs at h with h0 hlast hcond
    subst h0
    obtain ⟨ys, hys⟩ := List.getLast?_eq_some_iff.mp hlast
    simp only [Option.some.injEq, Prod.mk.injEq] at h
    obtain ⟨hfl, hc⟩ := h
    subst hys
    rw [List.dropLast_concat] at hcond hc
    subst hc
    simp only [Bool.and_eq_true, Bool.not_eq_true',
      List.isEmpty_eq_false] at hcond
    refine ⟨?_, hcond.1, hcond.2, ?_⟩
    · rw [← hfl]; exact List.all_takeWhile
    · conv_lhs => rw [← List.takeWhile_append_dropWhile isFlagChar s]
      rw [hd, ← hfl]

/-- Computing a successful `^([erv]*)\{(.+)\}$` match from the shape. -/
theorem matchFlagBracket_of_shape {fl c : Str} (hall : fl.all isFlagChar)
    (hne : c ≠ []) (hnlt : c.all (fun ch => !isLineTerminator ch)) :
    matchFlagBracket (fl ++ '{' :: (c ++ ['}'])) = some (fl, c) := by
  unfold matchFlagBracket
  rw [dropWhile_flagShape hall, takeWhile_flagShape hall]
  simp [List.getLast?_concat, List.dropLast_concat, hne, hnlt]

/-- Computing `^[erv]*\{[^{}]+\}$` from the shape. -/
theorem paramShapeTest_of_shape {fl c : Str} (hall : fl.all isFlagChar)
    (hne : c ≠ []) (hnb : c.all (fun ch => !isBrace ch)) :
    paramShapeTest (fl ++ '{' :: (c ++ ['}'])) = true := by
  unfold paramShapeTest
  rw [dropWhile_flagShape hall]
  simp [List.getLast?_concat, List.dropLast_concat, hne, hnb]

/-! ### Claim C2 -/

/-- C2 (confirmed): `getFinalValue` returns the first applicable tier of
the cascade exactly as the specification orders it: encryptedValue, then
convertedValue, then literal-flagged extractedValue, then the empty
string in SUBSTITUTION or PARAMETER mode when neither a literal flag nor
a converted value is present, then originalValue. -/
theorem getFinalValue_follows_cascade (originalValue : Str)
    (extractedValue convertedValue encryptedValue : Option Str)
    (flags : ParameterFlags) (type : ParameterType) (mode : ProcessingMode) :
    getFinalValue originalValue extractedValue convertedValue encryptedValue
      flags type mode =
    getFinalValueSpec originalValue extractedValue convertedValue
      encryptedValue flags mode := by
  cases encryptedValue with
  | some e => simp [getFinalValue, getFinalValueSpec]
  | none =>
    cases convertedValue with
    | some c => simp [getFinalValue, getFinalValueSpec]
    | none =>
      cases hl : flags.literal with
      | true =>
        cases extractedValue with
        | some e => simp [getFinalValue, getFinalValueSpec, hl]
        | none => cases mode <;> simp [getFinalValue, getFinalValueSpec, hl]
      | false =>
        cases mode <;>
          simp [getFinalValue, getFinalValueSpec, hl, optTruthy]

/-! ### Claim C3 -/

/-- C3 (counterexample): the string `{a}b{c}` has the claimed shape
`flags{content}` with a content (`a}b{c`) that contains no bracket
region, yet `detectProcessingMode` classifies it as SUBSTITUTION, so the
claimed equivalence is false. -/
theorem detectProcessingMode_claim_counterexample :
    claimParamShape ("{a}b{c}".toList) ∧
      detectProcessingMode ("{a}b{c}".toList) = .SUBSTITUTION := by
  refine ⟨⟨[], "a\x7db\x7bc".toList, ?_, ?_, ?_⟩, ?_⟩ <;> decide

/-- C3 (amended): `detectProcessingMode` returns PARAMETER iff the whole
string is `flags{content}` where the content is non-empty, contains no
brace at all (not merely no bracket region), and contains no line
terminator; every other string yields SUBSTITUTION. -/
theorem detectProcessingMode_characterisation (s : Str) :
    (detectProcessingMode s = .PARAMETER ↔ codeParamShape s) ∧
      (detectProcessingMode s ≠ .PARAMETER →
        detectProcessingMode s = .SUBSTITUTION) := by
  constructor
  · constructor
    · intro h
      unfold detectProcessingMode at h
      by_cases hp : paramShapeTest s = true
      · rw [if_pos hp] at h
        rcases hm : matchFlagBracket s with _ | ⟨fl, c⟩ <;> rw [hm] at h
        · exact absurd h (by simp)
        · obtain ⟨hall, hne, hnlt, hs⟩ := matchFlagBracket_eq_some hm
          refine ⟨fl, c, hall, hne, ?_, hnlt, hs⟩
          rw [hs] at hp
          unfold paramShapeTest at hp
          rw [dropWhile_flagShape hall] at hp
          simp only [List.getLast?_concat, List.dropLast_concat] at hp
          simp only [Bool.and_eq_true, Bool.not_eq_true',
            List.isEmpty_eq_false, decide_eq_true_eq] at hp
          exact hp.2.2
      · rw [if_neg hp] at h; exact absurd h (by simp)
    · rintro ⟨fl, c, hall, hne, hnb, hnlt, hs⟩
      subst hs
      unfold detectProcessingMode
      rw [if_pos (paramShapeTest_of_shape hall hne hnb),
        matchFlagBracket_of_shape hall hne hnlt]
      simp [containsBracketRegion_of_no_open hnb]
  · intro h
    cases hdm : detectProcessingMode s with
    | PARAMETER => exact absurd hdm h
    | SUBSTITUTION => rfl

/-- Witness for C3's amended theorem at the concrete input `"x"`. -/
theorem detectProcessingMode_characterisation_witness :
    detectProcessingMode ("x".toList) = .SUBSTITUTION :=
  (detectProcessingMode_characterisation ("x".toList)).2 (by decide)

/-! ### Claim C4 -/

theorem smartSplitAux_eq_depthZero (l : Str) :
    ∀ (current : Str) (depth : Int) (pairs : List Str),
      smartSplitAux l current depth pairs =
        pairs ++ (depthZeroSplitAux l depth current).filter trimNonEmpty := by
  induction l with
  | nil =>
    intro current depth pairs
    simp only [smartSplitAux, depthZeroSplitAux, List.filter]
    cases trimNonEmpty current <;> simp
  | cons c rest ih =>
    intro current depth pairs
    by_cases h1 : c = '{'
    · subst h1
      rw [show smartSplitAux ('{' :: rest) current depth pairs =
        smartSplitAux rest (current ++ ['{']) (depth + 1) pairs from rfl]
      rw [ih]
      have hne : ¬('{' = '&' ∧ depth = 0) := by rintro ⟨h, -⟩; exact absurd h (by decide)
      simp only [depthZeroSplitAux, if_neg hne]
      have e3 : (if ('{' : Char) = '}' then (1 : Int) else 0) = 0 :=
        if_neg (by decide)
      rw [e3]
      norm_num
    · by_cases h2 : c = '}'
      · subst h2
        rw [show smartSplitAux ('}' :: rest) current depth pairs =
          smartSplitAux rest (current ++ ['}']) (depth - 1) pairs from rfl]
        rw [ih]
        have hne : ¬('}' = '&' ∧ depth = 0) := by rintro ⟨h, -⟩; exact absurd h (by decide)
        simp only [depthZeroSplitAux, if_neg hne]
        have : ¬('}' = '{') := by decide
        simp only [if_neg this, if_pos rfl]
        norm_num
      · by_cases h3 : c = '&' ∧ depth = 0
        · obtain ⟨hc, hd⟩ := h3
          subst hc; subst hd
          rw [show smartSplitAux ('&' :: rest) current 0 pairs =
            smartSplitAux rest [] 0
              (if trimNonEmpty current then pairs ++ [current] else pairs) from by
            simp [smartSplitAux, h1, h2]]
          rw [ih]
          cases htr : trimNonEmpty current <;>
            simp [depthZeroSplitAux, List.filter_cons, htr]
        · rw [show smartSplitAux (c :: rest) current depth pairs =
            smartSplitAux rest (current ++ [c]) depth pairs from by
            simp [smartSplitAux, h1, h2, h3]]
          rw [ih]
          simp only [depthZeroSplitAux, if_neg h3, if_neg h1, if_neg h2]
          norm_num

/-- C4 (confirmed): `smartSplitQuery` splits exactly at the `&` characters
occurring at brace-depth zero (depth incremented on `{`, decremented on
`}`), keeping the pieces with a non-blank trim; in particular
`name={A&B}&value=test` yields exactly the two pieces `name={A&B}` and
`value=test`. -/
theorem smartSplitQuery_depth_zero_split :
    (∀ s : Str, smartSplitQuery s = (depthZeroSplit s).filter trimNonEmpty) ∧
      smartSplitQuery ("name={A&B}&value=test".toList) =
        ["name={A&B}".toList, "value=test".toList] := by
  constructor
  · intro s
    simpa using smartSplitAux_eq_depthZero s [] 0 []
  · decide

/-! ### Claim C10 -/

/-- C10 (confirmed): `smartSplitQuery` decrements its depth counter on a
`}` even at depth zero, so in `a=b}x&c=d` the `&` (at index 5) occurs at
negative depth and is not a separator: the split yields a single piece. -/
theorem smartSplitQuery_negative_depth :
    braceDepth ("a=b\x7dx".toList) < 0 ∧
      ("a=b\x7dx&c=d".toList).get? 5 = some '&' ∧
      smartSplitQuery ("a=b\x7dx&c=d".toList) = ["a=b\x7dx&c=d".toList] := by
  refine ⟨by decide, by decide, by decide⟩

/-! ### Claim C9 -/

/-- C9 (confirmed): a depth-zero-split piece containing no `=`, or whose
key part (the text before its first `=`) is empty, contributes no query
entry at all: `parseRecursive` processes the split pieces one by one and
such a piece yields the empty entry list. -/
theorem malformed_pair_contributes_nothing :
    (∀ (fuel : Nat) (pf : ParameterFlags) (content : Str),
      parseQueryRec (fuel + 1) pf content =
        (smartSplitQuery content).flatMap (pairEntries fuel pf)) ∧
    (∀ (fuel : Nat) (pf : ParameterFlags) (pair : Str),
      (pair.contains '=' = false ∨
        pair.takeWhile (fun c => !(c = '=')) = []) →
      pairEntries fuel pf pair = []) := by
  constructor
  · intro fuel pf content; rfl
  · intro fuel pf pair h
    rcases h with h | h
    · have hidx : pair.findIdx? (fun c => c = '=') = none := by
        rw [List.findIdx?_eq_none_iff]
        intro x hx
        simp only [decide_eq_false_iff_not]
        intro hc
        subst hc
        simp [List.elem_iff] at h
        exact h hx
      simp [pairEntries, pairEntriesAux, hidx]
    · cases pair with
      | nil => simp [pairEntries, pairEntriesAux, List.findIdx?]
      | cons a t =>
        have ha : a = '=' := by
          by_contra hne
          simp [List.takeWhile, hne] at h
        subst ha
        simp [pairEntries, pairEntriesAux, List.findIdx?_cons]

/-- Witness for C9 at the concrete piece `justkey` (no `=`). -/
theorem malformed_pair_contributes_nothing_witness :
    pairEntries 3 noFlags ("justkey".toList) = [] :=
  (malformed_pair_contributes_nothing).2 3 noFlags ("justkey".toList)
    (Or.inl (by decide))

/-! ### Claim C6 -/

/-- C6 (counterexample): the query pair `name=v{a{b}c}` is classified as
SUBSTITUTION mode (nested braces), its literal flag is parsed as set, yet
its category is Unknown, not Literal — refuting the claimed invariant
`literal ⇒ category = Literal`. -/
theorem literal_flag_unknown_category_counterexample :
    ∃ q ∈ parseQueryValue ("name=v{a{b}c}".toList) noFlags,
      q.flags.literal = true ∧ q.processingMode = .SUBSTITUTION ∧
        q.type = .UNKNOWN := by
  decide

theorem determineParameterType_literal {v : Str} {flags : ParameterFlags}
    (h : flags.literal = true) : determineParameterType v flags = .LITERAL := by
  simp [determineParameterType, h]

theorem literalTypeOK_subQueryEntry (pf : ParameterFlags) (k v : Str) :
    literalTypeOK (subQueryEntry pf k v).flags (subQueryEntry pf k v).type
      (subQueryEntry pf k v).processingMode := by
  constructor
  · intro h; simp [subQueryEntry] at h
  · intro _; rfl

theorem literalTypeOK_paramQueryEntry (pf : ParameterFlags) (k v : Str) :
    literalTypeOK (paramQueryEntry pf k v).flags (paramQueryEntry pf k v).type
      (paramQueryEntry pf k v).processingMode := by
  constructor
  · intro _ hlit
    exact determineParameterType_literal hlit
  · intro h; simp [paramQueryEntry] at h

theorem pairEntriesAux_literalTypeOK
    {recur : ParameterFlags → Str → List ParsedQuery}
    (hrec : ∀ fl s q, q ∈ recur fl s → literalTypeOK q.flags q.type q.processingMode)
    (pf : ParameterFlags) (pair : Str) (q : ParsedQuery)
    (hq : q ∈ pairEntriesAux recur pf pair) :
    literalTypeOK q.flags q.type q.processingMode := by
  unfold pairEntriesAux at hq
  split at hq
  · exact absurd hq (by simp)
  · split at hq
    · exact absurd hq (by simp)
    · split at hq
      · simp only [List.mem_singleton] at hq
        subst hq
        exact literalTypeOK_subQueryEntry _ _ _
      · rcases List.mem_cons.mp hq with hq | hq
        · subst hq
          exact literalTypeOK_paramQueryEntry _ _ _
        · split at hq
          · exact hrec _ _ _ hq
          · exact absurd hq (by simp)

theorem parseQueryRec_literalTypeOK :
    ∀ (fuel : Nat) (pf : ParameterFlags) (content : Str) (q : ParsedQuery),
      q ∈ parseQueryRec fuel pf content →
      literalTypeOK q.flags q.type q.processingMode := by
  intro fuel
  induction fuel with
  | zero => intro pf content q hq; exact absurd hq (by simp [parseQueryRec])
  | succ n ih =>
    intro pf content q hq
    rw [show parseQueryRec (n + 1) pf content =
      (smartSplitQuery content).flatMap
        (pairEntriesAux (parseQueryRec n) pf) from rfl] at hq
    rw [List.mem_flatMap] at hq
    obtain ⟨pair, -, hq⟩ := hq
    exact pairEntriesAux_literalTypeOK (fun fl s q hq => ih fl s q hq) pf pair q hq

/-- C6 (amended): for every entry produced by the parsing pipeline, in
PARAMETER mode a set literal flag forces category Literal; every
SUBSTITUTION-mode entry carries category Unknown regardless of its
flags; and the global wrapper entry carries category Global. -/
theorem literal_flag_type_invariant :
    (∀ (path : Str) (seg : ParsedSegment), seg ∈ parseUrlSegments path →
        literalTypeOK seg.flags seg.type seg.processingMode) ∧
    (∀ (fuel : Nat) (pf : ParameterFlags) (content : Str) (q : ParsedQuery),
        q ∈ parseQueryRec fuel pf content →
        literalTypeOK q.flags q.type q.processingMode) ∧
    (∀ (query : Str) (item : QueryItem), item ∈ parseQueryString query →
        (∀ q, item = .plain q → literalTypeOK q.flags q.type q.processingMode) ∧
        (∀ g, item = .global g → g.type = .GLOBAL ∧
          ∀ q ∈ g.innerResults, literalTypeOK q.flags q.type q.processingMode)) := by
  refine ⟨?_, parseQueryRec_literalTypeOK, ?_⟩
  · intro path seg hseg
    unfold parseUrlSegments at hseg
    split at hseg
    · exact absurd hseg (by simp)
    · rw [List.mem_map] at hseg
      obtain ⟨segment, -, hseg⟩ := hseg
      by_cases hmode : detectProcessingMode segment = .SUBSTITUTION
      · rw [if_pos hmode] at hseg
        subst hseg
        constructor
        · intro h; simp [subSegmentEntry] at h
        · intro _; rfl
      · rw [if_neg hmode] at hseg
        subst hseg
        constructor
        · intro _ hlit; exact determineParameterType_literal hlit
        · intro h; simp [paramSegmentEntry] at h
  · intro query item hitem
    unfold parseQueryString at hitem
    split at hitem
    · exact absurd hitem (by simp)
    · split at hitem
      · simp only [List.mem_singleton] at hitem
        subst hitem
        refine ⟨fun q hq => by exact absurd hq (by simp), fun g hg => ?_⟩
        cases hg
        exact ⟨rfl, fun q hq =>
          parseQueryRec_literalTypeOK _ _ _ q hq⟩
      · rw [List.mem_map] at hitem
        obtain ⟨q0, hq0, hitem⟩ := hitem
        subst hitem
        refine ⟨fun q hq => ?_, fun g hg => by exact absurd hg (by simp)⟩
        cases hq
        exact parseQueryRec_literalTypeOK _ _ _ q0 hq0

/-! ### Claim C1 / C7: the substitution engine -/

theorem flagStartAt_le (s : Str) (i : Nat) : flagStartAt s i ≤ i :=
  Nat.sub_le _ _

theorem flagStartAt_all (s : Str) (i : Nat) (h : i ≤ s.length) :
    ((s.take i).drop (flagStartAt s i)).all isFlagChar := by
  have hpre : (s.take i).length = i := by rw [List.length_take]; omega
  have hsplit : (s.take i).reverse =
      (s.take i).reverse.takeWhile isFlagChar ++
        (s.take i).reverse.dropWhile isFlagChar :=
    (List.takeWhile_append_dropWhile _ _).symm
  have hpre2 : s.take i =
      ((s.take i).reverse.dropWhile isFlagChar).reverse ++
        ((s.take i).reverse.takeWhile isFlagChar).reverse := by
    conv_lhs => rw [← List.reverse_reverse (s.take i)]
    conv_lhs => rw [hsplit]
    rw [List.reverse_append]
  have hlen : ((s.take i).reverse.takeWhile isFlagChar).length +
      ((s.take i).reverse.dropWhile isFlagChar).length = i := by
    have := congrArg List.length hsplit
    simp only [List.length_reverse, List.length_append, hpre] at this
    omega
  have hd : (((s.take i).reverse.dropWhile isFlagChar).reverse).length =
      flagStartAt s i := by
    rw [List.length_reverse]
    unfold flagStartAt
    omega
  have hdrop : (s.take i).drop (flagStartAt s i) =
      ((s.take i).reverse.takeWhile isFlagChar).reverse := by
    conv_lhs => rw [hpre2, ← hd]
    exact List.drop_left _ _
  rw [hdrop, List.all_reverse]
  exact List.all_takeWhile

theorem scanAux_sound (s : Str) :
    ∀ (l : Str) (i : Nat) (stack : List (Nat × Nat)) (fsVar : Nat)
      (fs o c : Nat),
      l = s.drop i → ScanInv s i stack →
      scanAux s l i stack fsVar = some (fs, o, c) →
      fs ≤ o ∧ o < c ∧ c < s.length ∧ s[o]? = some '{' ∧
        s[c]? = some '}' ∧ ((s.take o).drop fs).all isFlagChar := by
  intro l
  induction l with
  | nil =>
    intro i stack fsVar fs o c hl hinv hres
    simp [scanAux] at hres
  | cons ch rest ih =>
    intro i stack fsVar fs o c hl hinv hres
    have hi : i < s.length := by
      by_contra hge
      push_neg at hge
      have hnil : s.drop i = [] := List.drop_eq_nil_iff.mpr hge
      rw [hnil] at hl
      exact absurd hl (by simp)
    have hchar : s[i]? = some ch := by
      have h0 : (s.drop i)[0]? = some ch := by rw [← hl]; simp
      rw [List.getElem?_drop] at h0
      simpa using h0
    have hrest : rest = s.drop (i + 1) := by
      have ht : (s.drop i).tail = rest := by rw [← hl]; rfl
      rw [List.tail_drop] at ht
      exact ht.symm
    simp only [scanAux] at hres
    by_cases hob : ch = '{'
    · rw [if_pos hob] at hres
      refine ih (i + 1) _ _ fs o c hrest ?_ hres
      intro o' f' hlast
      cases stack with
      | nil =>
        simp only [List.isEmpty_nil, if_pos rfl] at hlast
        simp only [List.getLast?_singleton, Option.some.injEq,
          Prod.mk.injEq] at hlast
        obtain ⟨h1, h2⟩ := hlast
        subst h1; subst h2
        exact ⟨Nat.lt_succ_self _, hi, hob ▸ hchar, flagStartAt_le s i,
          flagStartAt_all s i hi.le⟩
      | cons top stack0 =>
        rw [List.getLast?_cons_cons] at hlast
        obtain ⟨ha, hb, hc', hd, he⟩ := hinv o' f' hlast
        exact ⟨Nat.lt_succ_of_lt ha, hb, hc', hd, he⟩
    · by_cases hcb : ch = '}'
      · rw [if_neg hob, if_pos hcb] at hres
        cases stack with
        | nil =>
          refine ih (i + 1) [] fsVar fs o c hrest ?_ hres
          intro o' f' hlast
          simp at hlast
        | cons top stack' =>
          obtain ⟨oI, f0⟩ := top
          have hres' : (if stack'.isEmpty then some (f0, oI, i)
              else scanAux s rest (i + 1) stack' fsVar) = some (fs, o, c) := hres
          by_cases hse : stack'.isEmpty
          · rw [if_pos hse] at hres'
            simp only [Option.some.injEq, Prod.mk.injEq] at hres'
            obtain ⟨hfs, ho, hc'⟩ := hres'
            have hnil : stack' = [] := List.isEmpty_iff.mp hse
            subst hnil
            obtain ⟨ha, hb, hc2, hd, he⟩ := hinv oI f0 (by simp)
            refine ⟨?_, ?_, ?_, ?_, ?_, ?_⟩
            · rw [← hfs, ← ho]; exact hd
            · rw [← ho, ← hc']; exact ha
            · rw [← hc']; exact hi
            · rw [← ho]; exact hc2
            · rw [← hc']; exact hcb ▸ hchar
            · rw [← ho, ← hfs]; exact he
          · rw [if_neg hse] at hres'
            refine ih (i + 1) stack' fsVar fs o c hrest ?_ hres'
            intro o' f' hlast
            have hlast2 : ((oI, f0) :: stack').getLast? = some (o', f') := by
              cases stack' with
              | nil => exact absurd (by simp) hse
              | cons a l => rw [List.getLast?_cons_cons]; exact hlast
            obtain ⟨ha, hb, hc2, hd, he⟩ := hinv o' f' hlast2
            exact ⟨Nat.lt_succ_of_lt ha, hb, hc2, hd, he⟩
      · rw [if_neg hob, if_neg hcb] at hres
        refine ih (i + 1) stack fsVar fs o c hrest ?_ hres
        intro o' f' hlast
        obtain ⟨ha, hb, hc2, hd, he⟩ := hinv o' f' hlast
        exact ⟨Nat.lt_succ_of_lt ha, hb, hc2, hd, he⟩

theorem scanStep_sound {s : Str} {fs o c : Nat}
    (h : scanStep s = some (fs, o, c)) :
    fs ≤ o ∧ o < c ∧ c < s.length ∧ s[o]? = some '{' ∧ s[c]? = some '}' ∧
      ((s.take o).drop fs).all isFlagChar :=
  scanAux_sound s s 0 [] 0 fs o c (by simp) (fun o' f' h' => by simp at h') h

theorem take_decomp {s : Str} {fs o : Nat} (h : fs ≤ o) :
    s.take o = s.take fs ++ (s.take o).drop fs := by
  conv_lhs => rw [← List.take_append_drop fs (s.take o)]
  rw [List.take_take]
  congr 2
  omega

theorem drop_within {s : Str} {a b : Nat} (hab : a ≤ b) (hb : b ≤ s.length) :
    s.drop a = (s.take b).drop a ++ s.drop b := by
  conv_lhs => rw [← List.take_append_drop b s]
  rw [List.drop_append_eq_append_drop]
  have h1 : (s.take b).length = b := by rw [List.length_take]; omega
  rw [h1]
  have h2 : a - b = 0 := by omega
  rw [h2, List.drop_zero]

theorem getElem_cons_decomp {s : Str} {n : Nat} {ch : Char}
    (h : s[n]? = some ch) : s.drop n = ch :: s.drop (n + 1) := by
  obtain ⟨hlt, heq⟩ := List.getElem?_eq_some_iff.mp h
  rw [List.drop_eq_getElem_cons hlt, heq]

theorem countLBrace_eq_zero {t : Str} (h : '{' ∉ t) : countLBrace t = 0 := by
  unfold countLBrace
  rw [List.count_eq_zero]
  exact h

theorem countLBrace_decomp {s : Str} {fs o c : Nat}
    (h1 : fs ≤ o) (h2 : o < c) (h3 : c < s.length)
    (h4 : s[o]? = some '{') (h5 : s[c]? = some '}')
    (h6 : ((s.take o).drop fs).all isFlagChar) :
    countLBrace s = countLBrace (s.take fs) + 1 +
      countLBrace (groupExtracted s o c) + countLBrace (s.drop (c + 1)) := by
  have hflag0 : countLBrace ((s.take o).drop fs) = 0 := by
    apply countLBrace_eq_zero
    intro hmem
    have := List.all_eq_true.mp h6 _ hmem
    exact absurd this (by decide)
  have e1 : s = s.take o ++ s.drop o := (List.take_append_drop o s).symm
  have e2 : s.take o = s.take fs ++ (s.take o).drop fs := take_decomp h1
  have e3 : s.drop o = '{' :: s.drop (o + 1) := getElem_cons_decomp h4
  have e4 : s.drop (o + 1) = (s.take c).drop (o + 1) ++ s.drop c :=
    drop_within h2 h3.le
  have e5 : s.drop c = '}' :: s.drop (c + 1) := getElem_cons_decomp h5
  have : countLBrace s =
      countLBrace (s.take fs) + countLBrace ((s.take o).drop fs) +
        (1 + (countLBrace ((s.take c).drop (o + 1)) +
          countLBrace (s.drop (c + 1)))) := by
    conv_lhs => rw [e1, e2, e3, e4, e5]
    unfold countLBrace
    simp only [List.count_append, List.count_cons]
    have hob : (('{' : Char) == '{') = true := by decide
    have hcb : (('}' : Char) == '{') = false := by decide
    rw [hob, hcb]
    simp
    omega
  rw [this, hflag0]
  unfold groupExtracted
  omega

theorem groupConverted_braceFree {conv : Option TypeConverter}
    (Hconv : ∀ f, conv = some f → ∀ v t r, f v t = some r → braceFree r = true)
    {ext : Str} {flags : ParameterFlags} {r : Str}
    (h : groupConverted ext flags conv = some r) : braceFree r = true := by
  cases hc : conv with
  | none => rw [hc] at h; simp [groupConverted] at h
  | some f =>
    rw [hc] at h
    simp only [groupConverted] at h
    split at h
    · exact Hconv f hc _ _ _ h
    · exact absurd h (by simp)

theorem groupEncrypted_braceFree {enc : Option Encryptor}
    (Henc : ∀ g, enc = some g → ∀ v r, g v = some r → braceFree r = true)
    {ext : Str} {flags : ParameterFlags} {cv : Option Str} {r : Str}
    (h : groupEncrypted ext flags cv enc = some r) : braceFree r = true := by
  cases hc : enc with
  | none => rw [hc] at h; simp [groupEncrypted] at h
  | some g =>
    rw [hc] at h
    simp only [groupEncrypted] at h
    split at h
    · split at h
      · exact Henc g hc _ _ h
      · exact absurd h (by simp)
    · split at h
      · exact Henc g hc _ _ h
      · exact absurd h (by simp)

theorem resolveGroup_final_cases {s : Str} {fs o c : Nat}
    {conv : Option TypeConverter} {enc : Option Encryptor}
    (Hconv : ∀ f, conv = some f → ∀ v t r, f v t = some r → braceFree r = true)
    (Henc : ∀ g, enc = some g → ∀ v r, g v = some r → braceFree r = true) :
    braceFree (resolveGroup s fs o c conv enc).1 = true ∨
      (resolveGroup s fs o c conv enc).1 = groupExtracted s o c := by
  have hfst : (resolveGroup s fs o c conv enc).1 =
      groupFinal (groupExtracted s o c)
        (parseFlags (groupFlagString s fs o))
        (groupConverted (groupExtracted s o c)
          (parseFlags (groupFlagString s fs o)) conv)
        (groupEncrypted (groupExtracted s o c)
          (parseFlags (groupFlagString s fs o))
          (groupConverted (groupExtracted s o c)
            (parseFlags (groupFlagString s fs o)) conv) enc) := rfl
  rw [hfst]
  unfold groupFinal
  split_ifs with he hcv hl
  · left
    rcases hev : groupEncrypted (groupExtracted s o c)
        (parseFlags (groupFlagString s fs o))
        (groupConverted (groupExtracted s o c)
          (parseFlags (groupFlagString s fs o)) conv) enc with _ | x
    · rw [hev] at he; simp [optTruthy] at he
    · simpa using groupEncrypted_braceFree Henc hev
  · left
    rcases hcv2 : groupConverted (groupExtracted s o c)
        (parseFlags (groupFlagString s fs o)) conv with _ | x
    · rw [hcv2] at hcv; simp [optTruthy] at hcv
    · simpa using groupConverted_braceFree Hconv hcv2
  · right; rfl
  · left; rfl

theorem splice_count_lt {s : Str} {fs o c : Nat}
    {conv : Option TypeConverter} {enc : Option Encryptor}
    (Hconv : ∀ f, conv = some f → ∀ v t r, f v t = some r → braceFree r = true)
    (Henc : ∀ g, enc = some g → ∀ v r, g v = some r → braceFree r = true)
    (hs : scanStep s = some (fs, o, c)) :
    countLBrace (spliceAt s fs (c + 1) (resolveGroup s fs o c conv enc).1) <
      countLBrace s := by
  obtain ⟨h1, h2, h3, h4, h5, h6⟩ := scanStep_sound hs
  have hdec := countLBrace_decomp h1 h2 h3 h4 h5 h6
  have hsplice : ∀ fv : Str, countLBrace (spliceAt s fs (c + 1) fv) =
      countLBrace (s.take fs) + countLBrace fv + countLBrace (s.drop (c + 1)) := by
    intro fv
    unfold spliceAt countLBrace
    simp only [List.count_append]
  rcases @resolveGroup_final_cases s fs o c conv enc
      Hconv Henc with hbf | hlit
  · have hz : countLBrace (resolveGroup s fs o c conv enc).1 = 0 := by
      apply countLBrace_eq_zero
      intro hmem
      have := List.all_eq_true.mp hbf _ hmem
      exact absurd this (by decide)
    rw [hsplice, hz]
    omega
  · rw [hsplice, hlit]
    omega

theorem processLoop_isSome {conv : Option TypeConverter} {enc : Option Encryptor}
    (Hconv : ∀ f, conv = some f → ∀ v t r, f v t = some r → braceFree r = true)
    (Henc : ∀ g, enc = some g → ∀ v r, g v = some r → braceFree r = true) :
    ∀ (fuel : Nat) (s : Str) (traces : List InnerTrace),
      countLBrace s < fuel →
      (processLoop conv enc fuel s traces).isSome = true := by
  intro fuel
  induction fuel with
  | zero => intro s traces h; omega
  | succ n ih =>
    intro s traces h
    rw [show processLoop conv enc (n + 1) s traces =
      (match scanStep s with
        | none => some (s, traces)
        | some (fs, openIdx, closeIdx) =>
          processLoop conv enc n
            (spliceAt s fs (closeIdx + 1)
              (resolveGroup s fs openIdx closeIdx conv enc).1)
            (traces ++ [(resolveGroup s fs openIdx closeIdx conv enc).2]))
      from rfl]
    rcases hscan : scanStep s with _ | ⟨fs, o, c⟩
    · simp
    · have hlt := splice_count_lt Hconv Henc hscan
      exact ih _ _ (by omega)

theorem processLoop_fixpoint {conv : Option TypeConverter} {enc : Option Encryptor} :
    ∀ (fuel : Nat) (s : Str) (traces : List InnerTrace) (out : Str)
      (trs : List InnerTrace),
      processLoop conv enc fuel s traces = some (out, trs) →
      scanStep out = none := by
  intro fuel
  induction fuel with
  | zero => intro s traces out trs h; simp [processLoop] at h
  | succ n ih =>
    intro s traces out trs h
    rw [show processLoop conv enc (n + 1) s traces =
      (match scanStep s with
        | none => some (s, traces)
        | some (fs, openIdx, closeIdx) =>
          processLoop conv enc n
            (spliceAt s fs (closeIdx + 1)
              (resolveGroup s fs openIdx closeIdx conv enc).1)
            (traces ++ [(resolveGroup s fs openIdx closeIdx conv enc).2]))
      from rfl] at h
    rcases hscan : scanStep s with _ | ⟨fs, o, c⟩ <;> rw [hscan] at h
    · simp only [Option.some.injEq, Prod.mk.injEq] at h
      rw [← h.1]
      exact hscan
    · exact ih _ _ _ _ h

/-- C1 (counterexample): on the input `{a{b}` — whose leading unmatched
`{` keeps the scanner's stack from ever emptying — the engine terminates
immediately without any splice, yet the returned string still contains
the well-formed bracket group `{b}`, refuting "no well-formed bracket
group remains" (the collaborator hypotheses hold trivially: there are no
collaborators and no splices). -/
theorem processSubstitution_group_remains :
    processSubstitution ("\x7ba\x7bb\x7d".toList) none none =
        some ("\x7ba\x7bb\x7d".toList, []) ∧
      containsWellFormedGroup ("\x7ba\x7bb\x7d".toList) = true := by
  refine ⟨by decide, by decide⟩

/-- C1 (amended): under the hypothesis that every collaborator output is
brace-free, the engine always terminates (the fuel `countLBrace + 1`
suffices: every splice removes at least one `{`), and the returned string
is a fixpoint of the engine: a further scan finds no completable bracket
group, and re-running the engine returns the string unchanged.  A
well-formed group may remain only when it is shadowed by an unmatched
`{` that prevents the scanner's stack from emptying. -/
theorem processSubstitution_terminates_fixpoint
    (conv : Option TypeConverter) (enc : Option Encryptor) (content : Str)
    (Hconv : ∀ f, conv = some f → ∀ v t r, f v t = some r → braceFree r = true)
    (Henc : ∀ g, enc = some g → ∀ v r, g v = some r → braceFree r = true) :
    (processSubstitution content conv enc).isSome = true ∧
      ∀ out traces, processSubstitution content conv enc = some (out, traces) →
        scanStep out = none ∧
          processSubstitution out conv enc = some (out, []) := by
  constructor
  · exact processLoop_isSome Hconv Henc _ content [] (Nat.lt_succ_self _)
  · intro out traces hout
    have hfix : scanStep out = none :=
      processLoop_fixpoint _ _ _ _ _ hout
    refine ⟨hfix, ?_⟩
    rw [show processSubstitution out conv enc =
      (match scanStep out with
        | none => some (out, ([] : List InnerTrace))
        | some (fs, openIdx, closeIdx) =>
          processLoop conv enc (countLBrace out)
            (spliceAt out fs (closeIdx + 1)
              (resolveGroup out fs openIdx closeIdx conv enc).1)
            ([] ++ [(resolveGroup out fs openIdx closeIdx conv enc).2]))
      from rfl]
    rw [hfix]

/-- Witness for C1's amended theorem at the concrete input `x{y}z` with
no collaborators. -/
theorem processSubstitution_terminates_fixpoint_witness :
    (processSubstitution ("x{y}z".toList) none none).isSome = true ∧
      scanStep ("xz".toList) = none ∧
      processSubstitution ("xz".toList) none none =
        some ("xz".toList, []) := by
  have h := processSubstitution_terminates_fixpoint none none
    ("x{y}z".toList) (fun f hf => by simp at hf) (fun g hg => by simp at hg)
  refine ⟨h.1, ?_, ?_⟩
  · exact (h.2 ("xz".toList)
      [{ type := .UNKNOWN, target := "y".toList, convertedValue := none,
         encryptedValue := none, result := [], flags := noFlags,
         transformationSuccess := true,
         failureReason := some (.unknownType ("y".toList)) }] (by decide)).1
  · exact (h.2 ("xz".toList)
      [{ type := .UNKNOWN, target := "y".toList, convertedValue := none,
         encryptedValue := none, result := [], flags := noFlags,
         transformationSuccess := true,
         failureReason := some (.unknownType ("y".toList)) }] (by decide)).2

/-- C7 (confirmed): on `PROC=!@r{NAME}` the backward flag scan stops at
`@`, so the flag region is exactly `r` (flagStart 7, brace 8); with a
resolver mapping NAME to NAME_VALUE and no obfuscator the engine returns
`PROC=!@NAME_VALUE` and emits exactly one trace with target `NAME`,
result `NAME_VALUE` and success true. -/
theorem nested_substitution_example :
    groupFlagString ("PROC=!@r{NAME}".toList) 7 8 = "r".toList ∧
      scanStep ("PROC=!@r{NAME}".toList) = some (7, 8, 13) ∧
      processSubstitution ("PROC=!@r{NAME}".toList)
          (some (fun v _ =>
            if v = "NAME".toList then some ("NAME_VALUE".toList) else none))
          none =
        some ("PROC=!@NAME_VALUE".toList,
          [{ type := .A, target := "NAME".toList,
             convertedValue := some ("NAME_VALUE".toList),
             encryptedValue := none, result := "NAME_VALUE".toList,
             flags := ⟨false, true, false⟩,
             transformationSuccess := true, failureReason := none }]) := by
  refine ⟨by decide, by decide, by decide⟩

/-! ### Claim C5 -/

/-- C5 (counterexample): for the Global Query Entry of `e{a=b}` — whose
encrypted flag is set — with an obfuscator provided and a non-empty
reassembled inner string `a=b`, `processGlobalQuery`'s output entry has
finalValue `a=b`, NOT the obfuscator's output `ENC[a=b]`, and its
encryptedValue stays null: the claimed obfuscation does not happen in
the Global Query Processor. -/
theorem global_query_not_obfuscated_counterexample :
    (processGlobalQueryT (globalQueryEntry ("e{a=b}".toList)) none
        (some (fun v => some ("ENC[".toList ++ v ++ [']'])))).map
        (fun r => (r.1.finalValue, r.1.convertedValue, r.1.encryptedValue)) =
      some ("a=b".toList, some ("a=b".toList), none) ∧
      (globalQueryEntry ("e{a=b}".toList)).flags.encrypted = true ∧
      (fun v => some ("ENC[".toList ++ v ++ [']'])) ("a=b".toList) =
        some ("ENC[a=b]".toList) ∧
      ("a=b".toList : Str) ≠ "ENC[a=b]".toList := by
  refine ⟨by decide, by decide, by decide, by decide⟩

/-- C5 (amended): `processGlobalQuery` resolves the inner entries and
reassembles the non-empty ones as `key=value` pairs joined by `&`, but
leaves `encryptedValue` null and sets both `convertedValue` and
`finalValue` to the pre-obfuscation reassembled string, regardless of the
encrypted flag and of whether an obfuscator is provided; the global
obfuscation is deferred to the reconstruction stage, where
`getReconstructedUrl` (DEFAULT mode) emits an `[ENCRYPT:...]` marker
around the reassembled string for encrypted global entries. -/
theorem processGlobalQuery_defers_obfuscation :
    (∀ (g : GlobalParsedQuery) (conv : Option TypeConverter)
        (enc : Option Encryptor) (out : GlobalParsedQuery)
        (trs : List TaggedTrace),
      processGlobalQueryT g conv enc = some (out, trs) →
        out.encryptedValue = none ∧
        out.finalValue = reassembleGlobal out.innerResults ∧
        out.convertedValue = some (reassembleGlobal out.innerResults)) ∧
    (∀ (g : GlobalParsedQuery) (traces : List TransformationTrace),
      g.flags.encrypted = true →
      strTruthy (reassembleGlobal g.innerResults) = true →
      hookProcessGlobalQuery g traces .DEFAULT =
        some ("[ENCRYPT:".toList ++ reassembleGlobal g.innerResults ++
          [']'])) := by
  constructor
  · intro g conv enc out trs h
    unfold processGlobalQueryT at h
    split at h
    · exact absurd h (by simp)
    · simp only [Option.some.injEq, Prod.mk.injEq] at h
      obtain ⟨hout, -⟩ := h
      subst hout
      exact ⟨rfl, rfl, rfl⟩
  · intro g traces henc htruthy
    unfold hookProcessGlobalQuery
    rw [if_neg (by simp : ¬(FilteringMode.DEFAULT = FilteringMode.STRICT)),
      if_pos htruthy]
    unfold wrapEncrypt
    rw [if_pos henc]

/-- Witness for C5's amended theorem at the concrete global query
`e{a=b}`. -/
theorem processGlobalQuery_defers_obfuscation_witness :
    (c5Out.encryptedValue = none ∧
      c5Out.finalValue = reassembleGlobal c5Out.innerResults ∧
      c5Out.convertedValue = some (reassembleGlobal c5Out.innerResults)) ∧
    hookProcessGlobalQuery c5Out [] .DEFAULT =
      some ("[ENCRYPT:".toList ++ reassembleGlobal c5Out.innerResults ++
        [']']) :=
  ⟨(processGlobalQuery_defers_obfuscation).1
      (globalQueryEntry ("e{a=b}".toList)) none none c5Out [] (by decide),
    (processGlobalQuery_defers_obfuscation).2 c5Out [] (by decide)
      (by decide)⟩

/-! ### Helper lemmas for claim C8: `findIdx?` and brace-free strings -/

theorem findIdx_cons_of_false {p : Char → Bool} {c : Char} {B : Str}
    (hc : p c = false) :
    List.findIdx? p (c :: B) = (List.findIdx? p B).map (fun i => i + 1) := by
  rw [show c :: B = [c] ++ B from rfl, List.findIdx?_append]
  simp [List.findIdx?_cons, hc]

theorem findIdx_append_of_none {p : Char → Bool} {A B : Str}
    (hA : ∀ a ∈ A, p a = false) :
    List.findIdx? p (A ++ B) =
      (List.findIdx? p B).map (fun i => i + A.length) := by
  rw [List.findIdx?_append, List.findIdx?_eq_none_iff.mpr hA, Option.none_or]

theorem findIdxChar_none_of {ch : Char} {l : Str} (h : ch ∉ l) :
    List.findIdx? (fun c => c = ch) l = none := by
  refine List.findIdx?_eq_none_iff.mpr (fun x hx => ?_)
  simp only [decide_eq_false_iff_not]
  intro he
  exact h (he ▸ hx)

theorem findIdxChar_cons_self {ch : Char} {B : Str} :
    List.findIdx? (fun c => c = ch) (ch :: B) = some 0 := by
  rw [List.findIdx?_cons]
  simp

theorem findIdxChar_decomp {ch : Char} :
    ∀ {l : Str} {i : Nat}, List.findIdx? (fun c => c = ch) l = some i →
      l = l.take i ++ ch :: l.drop (i + 1) ∧ ch ∉ l.take i := by
  intro l
  induction l with
  | nil => intro i h; simp at h
  | cons c rest ih =>
    intro i h
    by_cases hc : c = ch
    · subst hc
      rw [findIdxChar_cons_self] at h
      obtain rfl : (0 : Nat) = i := by simpa using h
      simp
    · rw [findIdx_cons_of_false (by simp [hc])] at h
      obtain ⟨j, hj, hi⟩ : ∃ j,
          List.findIdx? (fun c => c = ch) rest = some j ∧ i = j + 1 := by
        cases hrest : List.findIdx? (fun c => c = ch) rest with
        | none => rw [hrest] at h; simp at h
        | some j => rw [hrest] at h; simp at h; exact ⟨j, rfl, h.symm⟩
      subst hi
      obtain ⟨hdec, hnot⟩ := ih hj
      constructor
      · rw [List.take_succ_cons, List.drop_succ_cons]
        rw [List.cons_append]
        exact congrArg (c :: ·) hdec
      · rw [List.take_succ_cons]
        intro hm
        rcases List.mem_cons.mp hm with he | hm2
        · exact hc he.symm
        · exact hnot hm2

theorem bf_mem {s : Str} (h : braceFree s = true) {c : Char} (hc : c ∈ s) :
    isBrace c = false := by
  have := (List.all_eq_true.mp h) c hc
  simpa using this

theorem bf_mem_ne {s : Str} (h : braceFree s = true) {c : Char}
    (hc : c ∈ s) : c ≠ '{' ∧ c ≠ '}' := by
  have := bf_mem h hc
  simp [isBrace] at this
  exact this

theorem bf_sub {s t : Str} (hsub : t ⊆ s) (h : braceFree s = true) :
    braceFree t = true :=
  List.all_eq_true.mpr (fun c hc => List.all_eq_true.mp h c (hsub hc))

theorem bf_not_mem_lbrace {s : Str} (h : braceFree s = true) : '{' ∉ s :=
  fun hm => by have := bf_mem h hm; simp [isBrace] at this

theorem bf_not_mem_rbrace {s : Str} (h : braceFree s = true) : '}' ∉ s :=
  fun hm => by have := bf_mem h hm; simp [isBrace] at this

theorem bf_contains_lbrace {s : Str} (h : braceFree s = true) :
    s.contains '{' = false := by simpa using bf_not_mem_lbrace h

theorem bf_cons_iff {c : Char} {rest : Str} :
    braceFree (c :: rest) = true ↔
      isBrace c = false ∧ braceFree rest = true := by
  simp [braceFree]

theorem matchFlagBracket_bf {s : Str} (h : braceFree s = true) :
    matchFlagBracket s = none := by
  unfold matchFlagBracket
  cases hd : s.dropWhile isFlagChar with
  | nil => rfl
  | cons c0 rest =>
    have hmem : c0 ∈ s := (List.dropWhile_subset isFlagChar)
      (by rw [hd]; exact List.mem_cons_self _ _)
    simp [(bf_mem_ne h hmem).1]

theorem extract_bf {s : Str} (h : braceFree s = true) :
    extractValueWithBrackets s = (s, noFlags, none) := by
  unfold extractValueWithBrackets
  rw [matchFlagBracket_bf h]

theorem parseNestedStructure_bf {s : Str} (h : braceFree s = true) :
    parseNestedStructure s = (s, noFlags, s) := by
  unfold parseNestedStructure
  rw [matchFlagBracket_bf h]

theorem paramShapeTest_bf {s : Str} (h : braceFree s = true) :
    paramShapeTest s = false := by
  unfold paramShapeTest
  cases hd : s.dropWhile isFlagChar with
  | nil => rfl
  | cons c0 rest =>
    have hmem : c0 ∈ s := (List.dropWhile_subset isFlagChar)
      (by rw [hd]; exact List.mem_cons_self _ _)
    simp [(bf_mem_ne h hmem).1]

theorem detect_bf {s : Str} (h : braceFree s = true) :
    detectProcessingMode s = .SUBSTITUTION := by
  unfold detectProcessingMode
  rw [paramShapeTest_bf h]
  simp

theorem scanAux_bf {s : Str} :
    ∀ (l : Str) (i fsVar : Nat), braceFree l = true →
      scanAux s l i [] fsVar = none := by
  intro l
  induction l with
  | nil => intro i fsVar _; rfl
  | cons c rest ih =>
    intro i fsVar h
    obtain ⟨hc, hrest⟩ := bf_cons_iff.mp h
    have h1 : c ≠ '{' ∧ c ≠ '}' := by simpa [isBrace] using hc
    unfold scanAux
    rw [if_neg h1.1, if_neg h1.2]
    exact ih (i + 1) fsVar hrest

theorem countLBrace_bf {s : Str} (h : braceFree s = true) :
    countLBrace s = 0 := by
  unfold countLBrace
  exact List.count_eq_zero.mpr (bf_not_mem_lbrace h)

theorem processSubstitution_bf {t : Str} (h : braceFree t = true)
    (conv : Option TypeConverter) (enc : Option Encryptor) :
    processSubstitution t conv enc = some (t, []) := by
  unfold processSubstitution
  rw [countLBrace_bf h]
  show processLoop conv enc 1 t [] = some (t, [])
  unfold processLoop
  rw [show scanStep t = none from scanAux_bf (s := t) t 0 0 h]

theorem jsOrStr_some_self (v : Str) : jsOrStr (some v) v = v := by
  unfold jsOrStr
  split <;> rfl

theorem jsOrStr_none (b : Str) : jsOrStr none b = b := rfl

theorem splitChar_ne_nil (sep : Char) (l : Str) : splitChar sep l ≠ [] := by
  cases l with
  | nil => simp [splitChar]
  | cons c rest =>
    unfold splitChar
    by_cases hc : c = sep
    · rw [if_pos hc]; simp
    · rw [if_neg hc]
      cases hsp : splitChar sep rest <;> simp

theorem mem_splitChar_sub {sep : Char} :
    ∀ {l q : Str}, q ∈ splitChar sep l → q ⊆ l := by
  intro l
  induction l with
  | nil =>
    intro q hq
    simp [splitChar] at hq
    subst hq
    exact fun x hx => absurd hx (by simp)
  | cons c rest ih =>
    intro q hq
    unfold splitChar at hq
    by_cases hc : c = sep
    · rw [if_pos hc] at hq
      rcases List.mem_cons.mp hq with rfl | hq2
      · exact fun x hx => absurd hx (by simp)
      · exact fun x hx => List.mem_cons_of_mem _ (ih hq2 hx)
    · rw [if_neg hc] at hq
      cases hsp : splitChar sep rest with
      | nil => exact absurd hsp (splitChar_ne_nil sep rest)
      | cons p ps =>
        rw [hsp] at hq
        rcases List.mem_cons.mp hq with rfl | hq2
        · have hp : p ⊆ rest := ih (by rw [hsp]; exact List.mem_cons_self _ _)
          intro x hx
          rcases List.mem_cons.mp hx with rfl | hx2
          · exact List.mem_cons_self _ _
          · exact List.mem_cons_of_mem _ (hp hx2)
        · have hq3 : q ∈ splitChar sep rest := by
            rw [hsp]; exact List.mem_cons_of_mem _ hq2
          exact fun x hx => List.mem_cons_of_mem _ (ih hq3 hx)

theorem mem_splitChar_sepFree {sep : Char} :
    ∀ {l q : Str}, q ∈ splitChar sep l → sep ∉ q := by
  intro l
  induction l with
  | nil =>
    intro q hq
    simp [splitChar] at hq
    subst hq
    simp
  | cons c rest ih =>
    intro q hq
    unfold splitChar at hq
    by_cases hc : c = sep
    · rw [if_pos hc] at hq
      rcases List.mem_cons.mp hq with rfl | hq2
      · simp
      · exact ih hq2
    · rw [if_neg hc] at hq
      cases hsp : splitChar sep rest with
      | nil => exact absurd hsp (splitChar_ne_nil sep rest)
      | cons p ps =>
        rw [hsp] at hq
        rcases List.mem_cons.mp hq with rfl | hq2
        · have hp : sep ∉ p := ih (by rw [hsp]; exact List.mem_cons_self _ _)
          intro hm
          rcases List.mem_cons.mp hm with he | hm2
          · exact hc he.symm
          · exact hp hm2
        · exact ih (by rw [hsp]; exact List.mem_cons_of_mem _ hq2)

theorem splitChar_sepFree {sep : Char} :
    ∀ {p : Str}, sep ∉ p → splitChar sep p = [p] := by
  intro p
  induction p with
  | nil => intro _; rfl
  | cons c rest ih =>
    intro h
    have hc : ¬ c = sep := by
      intro he; subst he; exact h (List.mem_cons_self _ _)
    unfold splitChar
    rw [if_neg hc, ih (fun hm => h (List.mem_cons_of_mem _ hm))]

theorem splitChar_append_sep {sep : Char} :
    ∀ {p : Str}, sep ∉ p → ∀ (l : Str),
      splitChar sep (p ++ sep :: l) = p :: splitChar sep l := by
  intro p
  induction p with
  | nil =>
    intro _ l
    show splitChar sep (sep :: l) = [] :: splitChar sep l
    simp [splitChar]
  | cons c rest ih =>
    intro h l
    have hc : ¬ c = sep := by
      intro he; subst he; exact h (List.mem_cons_self _ _)
    show splitChar sep (c :: (rest ++ sep :: l)) = (c :: rest) :: splitChar sep l
    simp only [splitChar]
    rw [if_neg hc, ih (fun hm => h (List.mem_cons_of_mem _ hm)) l]

theorem splitChar_joinSep {sep : Char} :
    ∀ {ps : List Str}, ps ≠ [] → (∀ p ∈ ps, sep ∉ p) →
      splitChar sep (joinSep sep ps) = ps := by
  intro ps
  induction ps with
  | nil => intro h _; exact absurd rfl h
  | cons x rest ih =>
    intro _ hfree
    cases rest with
    | nil =>
      show splitChar sep x = [x]
      exact splitChar_sepFree (hfree x (List.mem_cons_self _ _))
    | cons y ys =>
      show splitChar sep (x ++ sep :: joinSep sep (y :: ys)) = x :: (y :: ys)
      rw [splitChar_append_sep (hfree x (List.mem_cons_self _ _)),
        ih (by simp) (fun p hp => hfree p (List.mem_cons_of_mem _ hp))]

theorem joinAmp_eq : ∀ (ps : List Str), joinAmp ps = joinSep '&' ps := by
  intro ps
  induction ps with
  | nil => rfl
  | cons x rest ih =>
    cases rest with
    | nil => rfl
    | cons y ys =>
      show x ++ '&' :: joinAmp (y :: ys) = x ++ '&' :: joinSep '&' (y :: ys)
      rw [ih]

theorem joinSlash_eq : ∀ (ps : List Str), joinSlash ps = joinSep '/' ps := by
  intro ps
  induction ps with
  | nil => rfl
  | cons x rest ih =>
    cases rest with
    | nil => rfl
    | cons y ys =>
      show x ++ '/' :: joinSlash (y :: ys) = x ++ '/' :: joinSep '/' (y :: ys)
      rw [ih]

theorem mem_joinSep {sep c : Char} :
    ∀ {ps : List Str}, c ∈ joinSep sep ps → c = sep ∨ ∃ p ∈ ps, c ∈ p := by
  intro ps
  induction ps with
  | nil => intro h; simp [joinSep] at h
  | cons x rest ih =>
    intro h
    cases rest with
    | nil => exact Or.inr ⟨x, List.mem_cons_self _ _, h⟩
    | cons y ys =>
      rw [show joinSep sep (x :: y :: ys) =
          x ++ sep :: joinSep sep (y :: ys) from rfl] at h
      rcases List.mem_append.mp h with hx | hoth
      · exact Or.inr ⟨x, List.mem_cons_self _ _, hx⟩
      · rcases List.mem_cons.mp hoth with rfl | hrest
        · exact Or.inl rfl
        · rcases ih hrest with hsep | ⟨p, hp, hcp⟩
          · exact Or.inl hsep
          · exact Or.inr ⟨p, List.mem_cons_of_mem _ hp, hcp⟩

theorem joinSep_ne_nil {sep : Char} {ps : List Str} (hne : ps ≠ [])
    (h1 : ∀ p ∈ ps, p ≠ []) : joinSep sep ps ≠ [] := by
  cases ps with
  | nil => exact absurd rfl hne
  | cons x rest =>
    cases rest with
    | nil => exact h1 x (List.mem_cons_self _ _)
    | cons y ys =>
      show x ++ sep :: joinSep sep (y :: ys) ≠ []
      simp

theorem smartSplitAux_bf :
    ∀ (l cur : Str) (acc : List Str), braceFree l = true →
      smartSplitAux l cur 0 acc =
        acc ++ (consHead cur (splitChar '&' l)).filter trimNonEmpty := by
  intro l
  induction l with
  | nil =>
    intro cur acc _
    show (if trimNonEmpty cur then acc ++ [cur] else acc) =
      acc ++ (consHead cur [[]]).filter trimNonEmpty
    rw [show consHead cur [[]] = [cur ++ []] from rfl, List.append_nil]
    by_cases ht : trimNonEmpty cur = true
    · simp [List.filter_cons, ht]
    · simp [List.filter_cons, ht]
  | cons c rest ih =>
    intro cur acc h
    obtain ⟨hcb, hrest⟩ := bf_cons_iff.mp h
    have hc1 : ¬ c = '{' ∧ ¬ c = '}' := by simpa [isBrace] using hcb
    obtain ⟨p, ps, hsp⟩ : ∃ p ps, splitChar '&' rest = p :: ps := by
      cases hx : splitChar '&' rest with
      | nil => exact absurd hx (splitChar_ne_nil _ _)
      | cons p ps => exact ⟨p, ps, rfl⟩
    unfold smartSplitAux
    rw [if_neg hc1.1, if_neg hc1.2]
    by_cases hc : c = '&'
    · rw [if_pos ⟨hc, rfl⟩, ih [] _ hrest,
        show splitChar '&' (c :: rest) = [] :: p :: ps from by
          unfold splitChar; rw [if_pos hc, hsp],
        hsp]
      rw [show consHead ([] : Str) (p :: ps) = p :: ps from by simp [consHead],
        show consHead cur ([] :: p :: ps) = cur :: p :: ps from by
          simp [consHead]]
      rw [@List.filter_cons Str cur (p :: ps) trimNonEmpty]
      by_cases ht : trimNonEmpty cur = true
      · rw [if_pos ht, if_pos ht]; simp
      · rw [if_neg ht, if_neg ht]
    · rw [if_neg (fun hand => hc hand.1), ih (cur ++ [c]) acc hrest,
        show splitChar '&' (c :: rest) = (c :: p) :: ps from by
          unfold splitChar; rw [if_neg hc, hsp],
        hsp]
      rw [show consHead (cur ++ [c]) (p :: ps) = ((cur ++ [c]) ++ p) :: ps
          from rfl,
        show consHead cur ((c :: p) :: ps) = (cur ++ c :: p) :: ps from rfl,
        show (cur ++ [c]) ++ p = cur ++ c :: p from by simp]

theorem smartSplitQuery_bf {q : Str} (h : braceFree q = true) :
    smartSplitQuery q = (splitChar '&' q).filter trimNonEmpty := by
  unfold smartSplitQuery
  rw [smartSplitAux_bf q [] [] h]
  obtain ⟨p, ps, hsp⟩ : ∃ p ps, splitChar '&' q = p :: ps := by
    cases hx : splitChar '&' q with
    | nil => exact absurd hx (splitChar_ne_nil _ _)
    | cons p ps => exact ⟨p, ps, rfl⟩
  rw [hsp]
  simp [consHead]

theorem keptShape_facts {k : Str} (h : keptShape k = true) :
    ∃ i, List.findIdx? (fun c => c = '=') k = some i ∧
      (k.take i).isEmpty = false ∧
      k = k.take i ++ '=' :: k.drop (i + 1) ∧ '=' ∉ k.take i := by
  unfold keptShape at h
  cases hidx : List.findIdx? (fun c => c = '=') k with
  | none => rw [hidx] at h; simp at h
  | some i =>
    rw [hidx] at h
    have h' : (!(k.take i).isEmpty) = true := h
    have hkey : (k.take i).isEmpty = false := by
      cases hie : (k.take i).isEmpty
      · rfl
      · rw [hie] at h'; simp at h'
    obtain ⟨hdec, hnot⟩ := findIdxChar_decomp hidx
    exact ⟨i, rfl, hkey, hdec, hnot⟩

theorem keptShape_trim {k : Str} (h : keptShape k = true) :
    trimNonEmpty k = true := by
  obtain ⟨i, _, _, hdec, _⟩ := keptShape_facts h
  unfold trimNonEmpty
  refine List.any_eq_true.mpr ⟨'=', ?_, by decide⟩
  rw [hdec]
  simp

theorem keptShape_ne_nil {k : Str} (h : keptShape k = true) : k ≠ [] := by
  obtain ⟨i, _, _, hdec, _⟩ := keptShape_facts h
  intro he
  rw [he] at hdec
  simp at hdec

theorem mem_keptPairs {q k : Str} (hk : k ∈ keptPairs q) :
    k ∈ smartSplitQuery q ∧ keptShape k = true := by
  unfold keptPairs at hk
  obtain ⟨a, ha, hfa⟩ := List.mem_filterMap.mp hk
  cases hidx : List.findIdx? (fun c => c = '=') a with
  | none => rw [hidx] at hfa; simp at hfa
  | some i =>
    rw [hidx] at hfa
    have hfa' : (if (a.take i).isEmpty = true then none else some a) =
        some k := hfa
    cases hie : (a.take i).isEmpty with
    | true => rw [hie] at hfa'; simp at hfa'
    | false =>
      rw [hie] at hfa'
      simp at hfa'
      subst hfa'
      refine ⟨ha, ?_⟩
      unfold keptShape
      rw [hidx]
      show (!(a.take i).isEmpty) = true
      rw [hie]
      rfl

theorem keptPairs_eq_filter (q : Str) :
    keptPairs q = (smartSplitQuery q).filterMap
      (fun p => if keptShape p then some p else none) := by
  unfold keptPairs
  congr 1
  funext p
  unfold keptShape
  cases hidx : List.findIdx? (fun c => c = '=') p with
  | none => simp
  | some i => cases hie : (p.take i).isEmpty <;> simp [hie]

theorem filterMap_keep_all {K : List Str}
    (h : ∀ k ∈ K, keptShape k = true) :
    K.filterMap (fun p => if keptShape p then some p else none) = K := by
  induction K with
  | nil => rfl
  | cons x rest ih =>
    rw [List.filterMap_cons]
    simp [h x (List.mem_cons_self _ _),
      ih (fun k hk => h k (List.mem_cons_of_mem _ hk))]

theorem keptPairs_joinAmp {K : List Str}
    (hK : ∀ k ∈ K, braceFree k = true ∧ '&' ∉ k ∧ keptShape k = true) :
    keptPairs (joinAmp K) = K := by
  rcases K with _ | ⟨x, rest⟩
  · rfl
  · have hbf : braceFree (joinAmp (x :: rest)) = true := by
      rw [joinAmp_eq]
      refine List.all_eq_true.mpr (fun c hc => ?_)
      rcases mem_joinSep hc with rfl | ⟨p, hp, hcp⟩
      · decide
      · exact List.all_eq_true.mp (hK p hp).1 c hcp
    rw [keptPairs_eq_filter, smartSplitQuery_bf hbf, joinAmp_eq,
      splitChar_joinSep (by simp) (fun p hp => (hK p hp).2.1),
      List.filter_eq_self.mpr (fun k hk => keptShape_trim (hK k hk).2.2),
      filterMap_keep_all (fun k hk => (hK k hk).2.2)]

theorem mem_smartSplit_bf {q k : Str} (h : braceFree q = true)
    (hk : k ∈ smartSplitQuery q) :
    k ⊆ q ∧ '&' ∉ k ∧ trimNonEmpty k = true := by
  rw [smartSplitQuery_bf h] at hk
  obtain ⟨hmem, htrim⟩ := List.mem_filter.mp hk
  exact ⟨mem_splitChar_sub hmem, mem_splitChar_sepFree hmem, htrim⟩

theorem urlPieces_rpath {pieces : List Str} (hne : pieces ≠ [])
    (h : ∀ p ∈ pieces, p ≠ [] ∧ '/' ∉ p) :
    urlPieces ('/' :: joinSlash pieces) = pieces := by
  unfold urlPieces
  rw [show splitChar '/' ('/' :: joinSlash pieces) =
      [] :: splitChar '/' (joinSlash pieces) from by simp [splitChar],
    joinSlash_eq, splitChar_joinSep hne (fun p hp => (h p hp).2),
    List.filter_cons, if_neg (by simp)]
  exact List.filter_eq_self.mpr (fun p hp => by simp [(h p hp).1])

theorem joinSlash_nil_iff {pieces : List Str}
    (h1 : ∀ p ∈ pieces, p ≠ []) : joinSlash pieces = [] ↔ pieces = [] := by
  constructor
  · intro h
    rw [joinSlash_eq] at h
    by_contra hne
    exact joinSep_ne_nil hne h1 h
  · intro h; subst h; rfl

theorem joinAmp_nil_iff {K : List Str}
    (h1 : ∀ p ∈ K, p ≠ []) : joinAmp K = [] ↔ K = [] := by
  constructor
  · intro h
    rw [joinAmp_eq] at h
    by_contra hne
    exact joinSep_ne_nil hne h1 h
  · intro h; subst h; rfl

theorem subQueryEntry_bf {key val : Str} (h : braceFree val = true) :
    subQueryEntry noFlags key val = bfParsed key val := by
  unfold subQueryEntry bfParsed
  rw [extract_bf h]
  rfl

theorem pairEntriesAux_not_kept
    {recurF : ParameterFlags → Str → List ParsedQuery}
    {pf : ParameterFlags} {p : Str} (h : keptShape p = false) :
    pairEntriesAux recurF pf p = [] := by
  unfold pairEntriesAux
  unfold keptShape at h
  cases hidx : List.findIdx? (fun c => c = '=') p with
  | none => rfl
  | some i =>
    rw [hidx] at h
    have h' : (!(p.take i).isEmpty) = false := h
    have hie : (p.take i).isEmpty = true := by
      cases hx : (p.take i).isEmpty
      · rw [hx] at h'; simp at h'
      · rfl
    simp [hie]

theorem pairEntriesAux_kept
    {recurF : ParameterFlags → Str → List ParsedQuery}
    {p : Str} {i : Nat} (hbf : braceFree p = true)
    (hidx : List.findIdx? (fun c => c = '=') p = some i)
    (hkey : (p.take i).isEmpty = false) :
    pairEntriesAux recurF noFlags p =
      [bfParsed (p.take i) (p.drop (i + 1))] := by
  have hbfv : braceFree (p.drop (i + 1)) = true :=
    bf_sub (List.drop_subset _ _) hbf
  unfold pairEntriesAux
  rw [hidx]
  simp [hkey, detect_bf hbfv, subQueryEntry_bf hbfv]

theorem handleEncryptionQ_not_encrypted {q : ParsedQuery}
    {c : Option Str} {enc : Option Encryptor}
    (h : q.flags.encrypted = false) : handleEncryptionQ q c enc = none := by
  unfold handleEncryptionQ
  cases enc with
  | none => rfl
  | some g => simp [h]

theorem handleEncryptionSeg_not_encrypted {q : ParsedSegment}
    {c : Option Str} {enc : Option Encryptor}
    (h : q.flags.encrypted = false) : handleEncryptionSeg q c enc = none := by
  unfold handleEncryptionSeg
  cases enc with
  | none => rfl
  | some g => simp [h]

theorem bf_item_transform {key val : Str} (h : braceFree val = true)
    (conv : Option TypeConverter) (enc : Option Encryptor) :
    transformQueryItem conv enc (.plain (bfParsed key val)) =
      some (.plain (bfDone key val), []) := by
  have h1 : handleQuerySubstitution (bfParsed key val) conv enc =
      some (bfDone key val, []) := by
    unfold handleQuerySubstitution
    rw [show jsOrStr (bfParsed key val).extractedValue
        (bfParsed key val).originalValue = val from jsOrStr_some_self val,
      processSubstitution_bf h conv enc]
    show some ({ bfParsed key val with
        convertedValue := some val
        encryptedValue :=
          handleEncryptionQ (bfParsed key val) (some val) enc
        finalValue := jsOrStr
          (handleEncryptionQ (bfParsed key val) (some val) enc) val },
      ([] : List InnerTrace)) = some (bfDone key val, [])
    rw [handleEncryptionQ_not_encrypted rfl]
    rfl
  simp only [transformQueryItem]
  rw [if_pos (show (bfParsed key val).processingMode = .SUBSTITUTION
    from rfl), h1]
  rfl

theorem shouldInclude_bf {q : ParsedQuery}
    (h : q.originalValue.contains '{' = false)
    (traces : List TransformationTrace) :
    shouldIncludeQueryInStrict q traces = true := by
  unfold shouldIncludeQueryInStrict
  have h' : '{' ∉ q.originalValue := by simpa using h
  simp [h']

theorem queryPart_bfDone {key val : Str} (hbf : braceFree val = true)
    (traces : List TransformationTrace) :
    queryPart traces .STRICT (.plain (bfDone key val)) =
      some (key ++ '=' :: val) := by
  have h1 : processRegularQuery (bfDone key val) traces .STRICT =
      some (key ++ '=' :: val) := by
    unfold processRegularQuery
    rw [if_pos rfl, if_pos (shouldInclude_bf
      (show (bfDone key val).originalValue.contains '{' = false from
        bf_contains_lbrace hbf) traces)]
    rfl
  show (match processRegularQuery (bfDone key val) traces .STRICT with
    | some part => if strTruthy part then some part else none
    | none => none) = some (key ++ '=' :: val)
  rw [h1]
  show (if strTruthy (key ++ '=' :: val) = true then
    some (key ++ '=' :: val) else none) = some (key ++ '=' :: val)
  rw [if_pos (by simp [strTruthy])]

theorem transformQueries_bf_chain (conv : Option TypeConverter)
    (enc : Option Encryptor)
    (recurF : ParameterFlags → Str → List ParsedQuery) :
    ∀ pieces : List Str, (∀ p ∈ pieces, braceFree p = true) →
      ∃ items, transformQueries conv enc
          ((pieces.flatMap (pairEntriesAux recurF noFlags)).map
            QueryItem.plain) = some (items, []) ∧
        ∀ traces, items.filterMap (queryPart traces .STRICT) =
          pieces.filterMap (fun p => if keptShape p then some p else none) := by
  intro pieces
  induction pieces with
  | nil => intro _; exact ⟨[], rfl, fun _ => rfl⟩
  | cons p ps ih =>
    intro h
    obtain ⟨items, hitems, hfm⟩ :=
      ih (fun x hx => h x (List.mem_cons_of_mem _ hx))
    have hbfp : braceFree p = true := h p (List.mem_cons_self _ _)
    cases hks : keptShape p with
    | false =>
      refine ⟨items, ?_, fun traces => ?_⟩
      · rw [List.flatMap_cons, pairEntriesAux_not_kept hks,
          List.nil_append]
        exact hitems
      · rw [List.filterMap_cons]
        simp only [hks]
        rw [if_neg (by simp)]
        exact hfm traces
    | true =>
      obtain ⟨i, hidx, hkey, hdec, _⟩ := keptShape_facts hks
      have hbfv : braceFree (p.drop (i + 1)) = true :=
        bf_sub (List.drop_subset _ _) hbfp
      refine ⟨.plain (bfDone (p.take i) (p.drop (i + 1))) :: items,
        ?_, fun traces => ?_⟩
      · rw [List.flatMap_cons, pairEntriesAux_kept hbfp hidx hkey,
          List.singleton_append, List.map_cons]
        show (match transformQueryItem conv enc
            (.plain (bfParsed (p.take i) (p.drop (i + 1)))) with
          | none => none
          | some (item', trs) =>
            match transformQueries conv enc
                ((ps.flatMap (pairEntriesAux recurF noFlags)).map
                  QueryItem.plain) with
            | none => none
            | some (rest', trs') => some (item' :: rest', trs ++ trs')) =
          some (.plain (bfDone (p.take i) (p.drop (i + 1))) :: items, [])
        rw [bf_item_transform hbfv conv enc, hitems]
        rfl
      · rw [List.filterMap_cons, List.filterMap_cons,
          queryPart_bfDone hbfv traces,
          show (if keptShape p = true then some p else none) = some p
            from by simp [hks],
          hfm traces, ← hdec]

theorem parseQueryString_bf {q : Str} (h : braceFree q = true) :
    parseQueryString q =
      ((smartSplitQuery q).flatMap
        (pairEntriesAux (parseQueryRec q.length) noFlags)).map
        QueryItem.plain := by
  by_cases hq : q.isEmpty = true
  · have hq' : q = [] := List.isEmpty_iff.mp hq
    subst hq'
    rfl
  · unfold parseQueryString
    rw [if_neg hq, parseNestedStructure_bf h, if_neg (by simp [noFlags])]
    unfold parseQueryValue
    rfl

theorem transformQueries_bf {q : Str} (h : braceFree q = true)
    (conv : Option TypeConverter) (enc : Option Encryptor) :
    ∃ items, transformQueries conv enc (parseQueryString q) =
        some (items, []) ∧
      ∀ traces, items.filterMap (queryPart traces .STRICT) = keptPairs q := by
  obtain ⟨items, hi, hf⟩ := transformQueries_bf_chain conv enc
    (parseQueryRec q.length) (smartSplitQuery q)
    (fun p hp => bf_sub (mem_smartSplit_bf h hp).1 h)
  refine ⟨items, ?_, fun traces => ?_⟩
  · rw [parseQueryString_bf h]; exact hi
  · rw [hf traces, ← keptPairs_eq_filter]

theorem parseUrlSegments_bf {path : Str} (h : braceFree path = true) :
    parseUrlSegments path = (urlPieces path).map bfSegParsed := by
  unfold parseUrlSegments
  by_cases hp : path.isEmpty = true
  · rw [if_pos hp]
    have hp' : path = [] := List.isEmpty_iff.mp hp
    subst hp'
    rfl
  · rw [if_neg hp]
    exact List.map_congr_left (fun seg hseg => by
      have hsub : braceFree seg = true :=
        bf_sub (mem_splitChar_sub (List.mem_filter.mp hseg).1) h
      rw [if_pos (detect_bf hsub)]
      unfold subSegmentEntry bfSegParsed
      rw [extract_bf hsub])

theorem transformSegmentsAux_bf (conv : Option TypeConverter)
    (enc : Option Encryptor) :
    ∀ (ps : List Str) (i : Nat), (∀ p ∈ ps, braceFree p = true) →
      transformSegmentsAux conv enc i (ps.map bfSegParsed) =
        some (ps.map bfSegDone, []) := by
  intro ps
  induction ps with
  | nil => intro i _; rfl
  | cons p rest ih =>
    intro i h
    have hbfp : braceFree p = true := h p (List.mem_cons_self _ _)
    have h2 : handleSegmentSubstitution (bfSegParsed p) conv enc =
        some (bfSegDone p, []) := by
      unfold handleSegmentSubstitution
      rw [show jsOrStr (bfSegParsed p).extractedValue
          (bfSegParsed p).originalValue = p from jsOrStr_some_self p,
        processSubstitution_bf hbfp conv enc]
      show some ({ bfSegParsed p with
          convertedValue := some p
          encryptedValue :=
            handleEncryptionSeg (bfSegParsed p) (some p) enc
          finalValue := jsOrStr
            (handleEncryptionSeg (bfSegParsed p) (some p) enc) p },
        ([] : List InnerTrace)) = some (bfSegDone p, [])
      rw [handleEncryptionSeg_not_encrypted rfl]
      rfl
    rw [List.map_cons]
    show (match (if (bfSegParsed p).processingMode = .SUBSTITUTION then
        handleSegmentSubstitution (bfSegParsed p) conv enc
      else transformParameterSeg (bfSegParsed p) conv enc) with
      | none => none
      | some (seg', trs) =>
        match transformSegmentsAux conv enc (i + 1)
            (rest.map bfSegParsed) with
        | none => none
        | some (rest', trs') =>
          some (seg' :: rest',
            trs.map (fun t => ⟨t, .url, segIdent i⟩) ++ trs')) =
      some (bfSegDone p :: rest.map bfSegDone, [])
    rw [if_pos (show (bfSegParsed p).processingMode = .SUBSTITUTION
        from rfl), h2,
      ih (i + 1) (fun x hx => h x (List.mem_cons_of_mem _ hx))]
    rfl

theorem transformSegments_bf {path : Str} (h : braceFree path = true)
    (conv : Option TypeConverter) (enc : Option Encryptor) :
    transformSegments conv enc (parseUrlSegments path) =
      some ((urlPieces path).map bfSegDone, []) := by
  rw [parseUrlSegments_bf h]
  exact transformSegmentsAux_bf conv enc (urlPieces path) 0
    (fun p hp => bf_sub (mem_splitChar_sub (List.mem_filter.mp hp).1) h)

theorem take_append_cons (A : Str) (ch : Char) (B : Str) :
    (A ++ ch :: B).take A.length = A :=
  List.take_left A (ch :: B)

theorem drop_append_cons (A : Str) (ch : Char) (B : Str) :
    (A ++ ch :: B).drop (A.length + 1) = B := by
  rw [List.append_cons, show A.length + 1 = (A ++ [ch]).length from by simp]
  exact List.drop_left _ _

theorem protocolSplit_some {s pr af : Str}
    (h : protocolSplit s = some (pr, af)) :
    s = pr ++ ':' :: '/' :: '/' :: af ∧
      ∃ c rest, pr = c :: rest ∧ c.isAlpha = true ∧
        rest.all isProtoChar = true := by
  cases s with
  | nil => exact absurd h (by simp [protocolSplit])
  | cons c rest =>
    simp only [protocolSplit] at h
    by_cases hca : c.isAlpha = true
    · rw [if_pos hca] at h
      split at h
      · next tail heq =>
        rw [Option.some.injEq, Prod.mk.injEq] at h
        obtain ⟨hpr, haf⟩ := h
        subst hpr
        subst haf
        refine ⟨?_, c, rest.takeWhile isProtoChar, rfl, hca,
          List.all_takeWhile⟩
        show c :: rest =
          (c :: rest.takeWhile isProtoChar) ++ ':' :: '/' :: '/' :: tail
        rw [List.cons_append]
        have hr : rest = rest.takeWhile isProtoChar ++
            rest.dropWhile isProtoChar :=
          (List.takeWhile_append_dropWhile isProtoChar rest).symm
        rw [heq] at hr
        rw [← hr]
      · exact absurd h (by simp)
    · rw [if_neg hca] at h
      exact absurd h (by simp)

theorem protocolSplit_reassemble {c : Char} {rest tail : Str}
    (hca : c.isAlpha = true) (hall : rest.all isProtoChar = true) :
    protocolSplit (c :: (rest ++ ':' :: '/' :: '/' :: tail)) =
      some (c :: rest, tail) := by
  simp only [protocolSplit]
  rw [if_pos hca,
    show (rest ++ ':' :: '/' :: '/' :: tail).dropWhile isProtoChar =
      ':' :: '/' :: '/' :: tail from by
        rw [dropWhile_append_of_all _ hall, List.dropWhile_cons,
          if_neg (by decide)],
    show (rest ++ ':' :: '/' :: '/' :: tail).takeWhile isProtoChar = rest
      from by
        rw [takeWhile_append_of_all _ hall, List.takeWhile_cons,
          if_neg (by decide), List.append_nil]]
  rfl

theorem parseUrlComponents_none {s : Str} (h : protocolSplit s = none) :
    parseUrlComponents s =
      (match List.findIdx? (fun c => c = '?') s with
        | none => ([], [], s, [])
        | some qi => ([], [], s.take qi, s.drop (qi + 1))) := by
  unfold parseUrlComponents
  rw [h]

theorem parseUrlComponents_some {s pr af : Str}
    (h : protocolSplit s = some (pr, af)) :
    parseUrlComponents s =
      (match List.findIdx? (fun c => c = '/') af,
          List.findIdx? (fun c => c = '?') af with
        | none, none => (pr, af, [], [])
        | none, some qs => (pr, af.take qs, [], af.drop (qs + 1))
        | some ps, some qs =>
          if qs < ps then (pr, af.take qs, [], af.drop (qs + 1))
          else mkHostPath pr af ps
        | some ps, none => mkHostPath pr af ps) := by
  unfold parseUrlComponents
  rw [h]

theorem pc0_none {s : Str} (hps : protocolSplit s = none)
    (hq : List.findIdx? (fun c => c = '?') s = none) :
    parseUrlComponents s = ([], [], s, []) := by
  rw [parseUrlComponents_none hps, hq]

theorem pc0_some {s : Str} {qi : Nat} (hps : protocolSplit s = none)
    (hq : List.findIdx? (fun c => c = '?') s = some qi) :
    parseUrlComponents s = ([], [], s.take qi, s.drop (qi + 1)) := by
  rw [parseUrlComponents_none hps, hq]

theorem pc_nn {s pr af : Str} (h : protocolSplit s = some (pr, af))
    (hsl : List.findIdx? (fun c => c = '/') af = none)
    (hq : List.findIdx? (fun c => c = '?') af = none) :
    parseUrlComponents s = (pr, af, [], []) := by
  rw [parseUrlComponents_some h, hsl, hq]

theorem pc_nq {s pr af : Str} {qs : Nat}
    (h : protocolSplit s = some (pr, af))
    (hsl : List.findIdx? (fun c => c = '/') af = none)
    (hq : List.findIdx? (fun c => c = '?') af = some qs) :
    parseUrlComponents s = (pr, af.take qs, [], af.drop (qs + 1)) := by
  rw [parseUrlComponents_some h, hsl, hq]

theorem pc_sn {s pr af : Str} {ps : Nat}
    (h : protocolSplit s = some (pr, af))
    (hsl : List.findIdx? (fun c => c = '/') af = some ps)
    (hq : List.findIdx? (fun c => c = '?') af = none) :
    parseUrlComponents s = mkHostPath pr af ps := by
  rw [parseUrlComponents_some h, hsl, hq]

theorem pc_sq {s pr af : Str} {ps qs : Nat}
    (h : protocolSplit s = some (pr, af))
    (hsl : List.findIdx? (fun c => c = '/') af = some ps)
    (hq : List.findIdx? (fun c => c = '?') af = some qs) :
    parseUrlComponents s =
      (if qs < ps then (pr, af.take qs, [], af.drop (qs + 1))
        else mkHostPath pr af ps) := by
  rw [parseUrlComponents_some h, hsl, hq]

theorem mkHostPath_none {pr af : Str} {ps : Nat}
    (hq2 : List.findIdx? (fun c => c = '?') (af.drop ps) = none) :
    mkHostPath pr af ps = (pr, af.take ps, af.drop ps, []) := by
  unfold mkHostPath
  rw [hq2]

theorem mkHostPath_some {pr af : Str} {ps qip : Nat}
    (hq2 : List.findIdx? (fun c => c = '?') (af.drop ps) = some qip) :
    mkHostPath pr af ps = (pr, af.take ps, (af.drop ps).take qip,
      (af.drop ps).drop (qip + 1)) := by
  unfold mkHostPath
  rw [hq2]

theorem components_bf {s : Str} (hbf : braceFree s = true) :
    braceFree (parseUrlComponents s).2.2.1 = true ∧
      braceFree (parseUrlComponents s).2.2.2 = true := by
  cases hps : protocolSplit s with
  | none =>
    cases hq : List.findIdx? (fun c => c = '?') s with
    | none => rw [pc0_none hps hq]; exact ⟨hbf, rfl⟩
    | some qi =>
      rw [pc0_some hps hq]
      exact ⟨bf_sub (List.take_subset _ _) hbf,
        bf_sub (List.drop_subset _ _) hbf⟩
  | some pa =>
    obtain ⟨pr, af⟩ := pa
    have haf : braceFree af = true := by
      obtain ⟨hdec, -⟩ := protocolSplit_some hps
      refine bf_sub (fun x hx => ?_) hbf
      rw [hdec]
      simp [hx]
    cases hsl : List.findIdx? (fun c => c = '/') af with
    | none =>
      cases hq : List.findIdx? (fun c => c = '?') af with
      | none => rw [pc_nn hps hsl hq]; exact ⟨rfl, rfl⟩
      | some qs =>
        rw [pc_nq hps hsl hq]
        exact ⟨rfl, bf_sub (List.drop_subset _ _) haf⟩
    | some ps =>
      have hmk : braceFree (mkHostPath pr af ps).2.2.1 = true ∧
          braceFree (mkHostPath pr af ps).2.2.2 = true := by
        cases hq2 : List.findIdx? (fun c => c = '?') (af.drop ps) with
        | none =>
          rw [mkHostPath_none hq2]
          exact ⟨bf_sub (List.drop_subset _ _) haf, rfl⟩
        | some qip =>
          rw [mkHostPath_some hq2]
          exact ⟨bf_sub (fun x hx =>
              List.drop_subset _ _ (List.take_subset _ _ hx)) haf,
            bf_sub (fun x hx =>
              List.drop_subset _ _ (List.drop_subset _ _ hx)) haf⟩
      cases hq : List.findIdx? (fun c => c = '?') af with
      | none => rw [pc_sn hps hsl hq]; exact hmk
      | some qs =>
        rw [pc_sq hps hsl hq]
        by_cases hlt : qs < ps
        · rw [if_pos hlt]
          exact ⟨rfl, bf_sub (List.drop_subset _ _) haf⟩
        · rw [if_neg hlt]
          exact hmk

theorem baseUrl_norm (proto host : Str) :
    (if (if !proto.isEmpty && !host.isEmpty then
          proto ++ "://".toList ++ host else []).isEmpty = true
      then ([] : Str)
      else if !proto.isEmpty && !host.isEmpty then
        proto ++ "://".toList ++ host else []) =
    (if proto.isEmpty || host.isEmpty then ([] : Str)
      else proto ++ "://".toList ++ host) := by
  have hcol : ("://".toList : Str) = [':', '/', '/'] := rfl
  by_cases hpe : proto.isEmpty = true <;>
    by_cases hhe : host.isEmpty = true <;>
    simp [hpe, hhe, hcol]

theorem rpath_norm (J : Str) :
    (if (if J.isEmpty = true then ([] : Str) else '/' :: J).isEmpty = true
      then ([] : Str) else (if J.isEmpty = true then [] else '/' :: J)) =
    (if J.isEmpty = true then ([] : Str) else '/' :: J) := by
  by_cases hj : J.isEmpty = true <;> simp [hj]

theorem bfSegDone_finals (pieces : List Str) :
    (pieces.map bfSegDone).map (fun seg => seg.finalValue) = pieces := by
  rw [List.map_map]
  exact (List.map_congr_left (fun a _ => rfl)).trans (List.map_id _)

theorem pipelineStrict_bf {s : Str} (hbf : braceFree s = true)
    (conv : Option TypeConverter) (enc : Option Encryptor) :
    pipelineStrict s conv enc = some (strictAssembleOf s) := by
  obtain ⟨hpath0, hqs0⟩ := components_bf hbf
  rcases hc : parseUrlComponents s with ⟨proto, host, path, qs⟩
  rw [hc] at hpath0 hqs0
  have hpath : braceFree path = true := hpath0
  have hqs : braceFree qs = true := hqs0
  obtain ⟨items, hitems, hfm⟩ := transformQueries_bf hqs conv enc
  have hupd : updateParseResultT s conv enc = some
      { baseUrl := if !proto.isEmpty && !host.isEmpty then
            proto ++ "://".toList ++ host
          else []
        reconstructedPath :=
          if (joinSlash (((urlPieces path).map bfSegDone).map
              (fun seg => seg.finalValue))).isEmpty then []
          else '/' :: joinSlash (((urlPieces path).map bfSegDone).map
              (fun seg => seg.finalValue))
        url := (urlPieces path).map bfSegDone
        query := items
        transformationTraces := collectTransformationTraces
          ((urlPieces path).map bfSegDone) items [] } := by
    have h0 : updateParseResultT s conv enc =
        (match transformSegments conv enc (parseUrlSegments path) with
          | none => none
          | some (segs, segTraces) =>
            match transformQueries conv enc (parseQueryString qs) with
            | none => none
            | some (queries, qTraces) =>
              some { baseUrl := if !proto.isEmpty && !host.isEmpty then
                       proto ++ "://".toList ++ host
                     else []
                     reconstructedPath :=
                       if (joinSlash (segs.map
                           (fun seg => seg.finalValue))).isEmpty then []
                       else '/' :: joinSlash (segs.map
                           (fun seg => seg.finalValue))
                     url := segs
                     query := queries
                     transformationTraces := collectTransformationTraces
                       segs queries ((segTraces ++ qTraces).map
                         innerTraceToTransformation) }) := by
      unfold updateParseResultT
      rw [hc]
    rw [h0, transformSegments_bf hpath conv enc, hitems]
    rfl
  unfold pipelineStrict
  rw [hupd]
  show some _ = some (strictAssembleOf s)
  congr 1
  unfold getReconstructedUrl strictAssembleOf
  rw [hc]
  show (fun queryString =>
      (if (if !proto.isEmpty && !host.isEmpty then
          proto ++ "://".toList ++ host else []).isEmpty then []
        else if !proto.isEmpty && !host.isEmpty then
          proto ++ "://".toList ++ host else []) ++
      (if (if (joinSlash (((urlPieces path).map bfSegDone).map
            (fun seg => seg.finalValue))).isEmpty then []
          else '/' :: joinSlash (((urlPieces path).map bfSegDone).map
            (fun seg => seg.finalValue))).isEmpty then []
        else if (joinSlash (((urlPieces path).map bfSegDone).map
            (fun seg => seg.finalValue))).isEmpty then []
          else '/' :: joinSlash (((urlPieces path).map bfSegDone).map
            (fun seg => seg.finalValue))) ++
      (if queryString.isEmpty then [] else '?' :: queryString))
    (joinAmp (items.filterMap (queryPart (collectTransformationTraces
      ((urlPieces path).map bfSegDone) items []) .STRICT))) =
    strictAssemble proto host (urlPieces path) (keptPairs qs)
  rw [hfm _]
  show (if (if !proto.isEmpty && !host.isEmpty then
        proto ++ "://".toList ++ host else []).isEmpty = true then []
      else if !proto.isEmpty && !host.isEmpty then
        proto ++ "://".toList ++ host else []) ++
    (if (if (joinSlash (((urlPieces path).map bfSegDone).map
          (fun seg => seg.finalValue))).isEmpty then []
        else '/' :: joinSlash (((urlPieces path).map bfSegDone).map
          (fun seg => seg.finalValue))).isEmpty = true then []
      else if (joinSlash (((urlPieces path).map bfSegDone).map
          (fun seg => seg.finalValue))).isEmpty then []
        else '/' :: joinSlash (((urlPieces path).map bfSegDone).map
          (fun seg => seg.finalValue))) ++
    (if (joinAmp (keptPairs qs)).isEmpty then []
      else '?' :: joinAmp (keptPairs qs)) =
    strictAssemble proto host (urlPieces path) (keptPairs qs)
  rw [bfSegDone_finals, baseUrl_norm, rpath_norm]
  rfl

theorem protocolSplit_not_alpha {c : Char} {rest : Str}
    (h : c.isAlpha = false) : protocolSplit (c :: rest) = none := by
  simp only [protocolSplit]
  rw [if_neg (by simp [h])]

theorem pred_false_of_not_mem {ch : Char} {l : Str} (h : ch ∉ l) :
    ∀ a ∈ l, (a = ch : Bool) = false := fun a ha => by
  simp only [decide_eq_false_iff_not]
  intro he
  exact h (he ▸ ha)

theorem strictAssembleOf_fix {proto host : Str} {pieces K : List Str}
    (hproto : proto = [] ∨ ∃ c rest, proto = c :: rest ∧ c.isAlpha = true ∧
      rest.all isProtoChar = true)
    (hhost1 : '/' ∉ host) (hhost2 : '?' ∉ host)
    (hpieces : ∀ p ∈ pieces, p ≠ [] ∧ '/' ∉ p ∧ '?' ∉ p)
    (hK : ∀ k ∈ K, braceFree k = true ∧ '&' ∉ k ∧ keptShape k = true) :
    strictAssembleOf (strictAssemble proto host pieces K) =
      strictAssemble proto host pieces K := by
  have hcolon : ("://".toList : Str) = [':', '/', '/'] := rfl
  have hpne : ∀ p ∈ pieces, p ≠ [] := fun p hp => (hpieces p hp).1
  have hKne : ∀ k ∈ K, k ≠ [] := fun k hk => keptShape_ne_nil (hK k hk).2.2
  have hQR : keptPairs (joinAmp K) = K := keptPairs_joinAmp hK
  have hUP : pieces ≠ [] →
      urlPieces ('/' :: joinSlash pieces) = pieces := fun hne =>
    urlPieces_rpath hne (fun p hp => ⟨(hpieces p hp).1, (hpieces p hp).2.1⟩)
  have hRD : '?' ∉ ('/' :: joinSlash pieces) := by
    intro hm
    rcases List.mem_cons.mp hm with he | hm2
    · exact absurd he (by decide)
    · rw [joinSlash_eq] at hm2
      rcases mem_joinSep hm2 with he | ⟨p, hp, hcp⟩
      · exact absurd he (by decide)
      · exact (hpieces p hp).2.2 hcp
  by_cases hbe : (proto.isEmpty || host.isEmpty) = true
  · by_cases hPe : pieces = []
    · by_cases hKe : K = []
      · subst hPe
        subst hKe
        have hout : strictAssemble proto host [] ([] : List Str) = [] := by
          unfold strictAssemble
          rw [if_pos hbe]
          rfl
        rw [hout]
        rfl
      · subst hPe
        have hJAne : joinAmp K ≠ [] := fun h =>
          hKe ((joinAmp_nil_iff hKne).mp h)
        have hout : strictAssemble proto host [] K =
            '?' :: joinAmp K := by
          unfold strictAssemble
          rw [if_pos hbe,
            if_pos (show (joinSlash ([] : List Str)).isEmpty = true
              from rfl),
            if_neg (by simpa [List.isEmpty_iff] using hJAne)]
          rfl
        rw [hout]
        unfold strictAssembleOf
        rw [pc0_some (protocolSplit_not_alpha (by decide))
          findIdxChar_cons_self]
        show strictAssemble [] [] (urlPieces [])
          (keptPairs (joinAmp K)) = '?' :: joinAmp K
        rw [hQR]
        unfold strictAssemble
        rw [if_pos (by decide),
          if_pos (show (joinSlash (urlPieces ([] : Str))).isEmpty = true
            from rfl),
          if_neg (by simpa [List.isEmpty_iff] using hJAne)]
        rfl
    · have hJSne : joinSlash pieces ≠ [] := fun h =>
        hPe ((joinSlash_nil_iff hpne).mp h)
      by_cases hKe : K = []
      · subst hKe
        have hout : strictAssemble proto host pieces ([] : List Str) =
            '/' :: joinSlash pieces := by
          unfold strictAssemble
          rw [if_pos hbe,
            if_neg (by simpa [List.isEmpty_iff] using hJSne),
            show (if (joinAmp ([] : List Str)).isEmpty = true then ([] : Str)
              else '?' :: joinAmp []) = [] from rfl,
            List.append_nil, List.nil_append]
        rw [hout]
        unfold strictAssembleOf
        rw [pc0_none (protocolSplit_not_alpha (by decide))
          (findIdxChar_none_of hRD)]
        show strictAssemble [] [] (urlPieces ('/' :: joinSlash pieces))
          (keptPairs []) = '/' :: joinSlash pieces
        rw [hUP hPe]
        unfold strictAssemble
        rw [if_pos (by decide),
          if_neg (by simpa [List.isEmpty_iff] using hJSne)]
        rw [show (if (joinAmp (keptPairs ([] : Str))).isEmpty = true
            then ([] : Str) else '?' :: joinAmp (keptPairs [])) = []
          from rfl, List.append_nil, List.nil_append]
      · have hJAne : joinAmp K ≠ [] := fun h =>
          hKe ((joinAmp_nil_iff hKne).mp h)
        have hout : strictAssemble proto host pieces K =
            ('/' :: joinSlash pieces) ++ '?' :: joinAmp K := by
          unfold strictAssemble
          rw [if_pos hbe,
            if_neg (by simpa [List.isEmpty_iff] using hJSne),
            if_neg (by simpa [List.isEmpty_iff] using hJAne),
            List.nil_append]
        rw [hout]
        unfold strictAssembleOf
        rw [pc0_some (show protocolSplit
            (('/' :: joinSlash pieces) ++ '?' :: joinAmp K) = none from by
              rw [List.cons_append]
              exact protocolSplit_not_alpha (by decide))
          (show List.findIdx? (fun c => c = '?')
              (('/' :: joinSlash pieces) ++ '?' :: joinAmp K) =
            some ('/' :: joinSlash pieces).length from by
              rw [findIdx_append_of_none (pred_false_of_not_mem hRD),
                findIdxChar_cons_self]
              simp)]
        rw [take_append_cons, drop_append_cons]
        show strictAssemble [] [] (urlPieces ('/' :: joinSlash pieces))
          (keptPairs (joinAmp K)) =
          ('/' :: joinSlash pieces) ++ '?' :: joinAmp K
        rw [hUP hPe, hQR]
        unfold strictAssemble
        rw [if_pos (by decide),
          if_neg (by simpa [List.isEmpty_iff] using hJSne),
          if_neg (by simpa [List.isEmpty_iff] using hJAne),
          List.nil_append]
  · have hbe2 : (proto.isEmpty || host.isEmpty) = false := by
      cases hx : (proto.isEmpty || host.isEmpty)
      · rfl
      · exact absurd hx hbe
    obtain ⟨hpe2, hhe2⟩ : proto.isEmpty = false ∧ host.isEmpty = false := by
      constructor
      · cases hp : proto.isEmpty
        · rfl
        · rw [hp] at hbe2; simp at hbe2
      · cases hh : host.isEmpty
        · rfl
        · rw [hh] at hbe2; simp at hbe2
    rcases hproto with rfl | ⟨c, rest, rfl, hca, hall⟩
    · simp at hpe2
    · have hhne : host ≠ [] := fun h => by rw [h] at hhe2; simp at hhe2
      by_cases hPe : pieces = []
      · by_cases hKe : K = []
        · subst hPe
          subst hKe
          have hout : strictAssemble (c :: rest) host []
              ([] : List Str) =
              c :: (rest ++ ':' :: '/' :: '/' :: host) := by
            unfold strictAssemble
            rw [if_neg hbe]
            simp [hcolon]
            exact ⟨rfl, rfl⟩
          rw [hout]
          unfold strictAssembleOf
          rw [pc_nn (protocolSplit_reassemble hca hall)
            (findIdxChar_none_of hhost1) (findIdxChar_none_of hhost2)]
          show strictAssemble (c :: rest) host (urlPieces [])
            (keptPairs []) = c :: (rest ++ ':' :: '/' :: '/' :: host)
          unfold strictAssemble
          rw [if_neg hbe]
          simp [hcolon]
          exact ⟨rfl, rfl⟩
        · subst hPe
          have hJAne : joinAmp K ≠ [] := fun h =>
            hKe ((joinAmp_nil_iff hKne).mp h)
          have hout : strictAssemble (c :: rest) host [] K =
              c :: (rest ++ ':' :: '/' :: '/' ::
                (host ++ '?' :: joinAmp K)) := by
            unfold strictAssemble
            rw [if_neg hbe,
              if_pos (show (joinSlash ([] : List Str)).isEmpty = true
                from rfl),
              if_neg (by simpa [List.isEmpty_iff] using hJAne)]
            simp [hcolon]
          rw [hout]
          unfold strictAssembleOf
          have hq : List.findIdx? (fun c => c = '?')
              (host ++ '?' :: joinAmp K) = some host.length := by
            rw [findIdx_append_of_none (pred_false_of_not_mem hhost2),
              findIdxChar_cons_self]
            simp
          have hcomp : parseUrlComponents
              (c :: (rest ++ ':' :: '/' :: '/' ::
                (host ++ '?' :: joinAmp K))) =
              (c :: rest, host, [], joinAmp K) := by
            cases hja : List.findIdx? (fun ch => ch = '/')
                (joinAmp K) with
            | none =>
              have hsl : List.findIdx? (fun ch => ch = '/')
                  (host ++ '?' :: joinAmp K) = none := by
                rw [findIdx_append_of_none
                    (pred_false_of_not_mem hhost1),
                  findIdx_cons_of_false (by decide), hja]
                rfl
              rw [pc_nq (protocolSplit_reassemble hca hall) hsl hq,
                take_append_cons, drop_append_cons]
            | some r =>
              have hsl : List.findIdx? (fun ch => ch = '/')
                  (host ++ '?' :: joinAmp K) =
                  some (r + 1 + host.length) := by
                rw [findIdx_append_of_none
                    (pred_false_of_not_mem hhost1),
                  findIdx_cons_of_false (by decide), hja]
                rfl
              rw [pc_sq (protocolSplit_reassemble hca hall) hsl hq,
                if_pos (by omega), take_append_cons, drop_append_cons]
          rw [hcomp]
          show strictAssemble (c :: rest) host (urlPieces [])
            (keptPairs (joinAmp K)) =
            c :: (rest ++ ':' :: '/' :: '/' ::
              (host ++ '?' :: joinAmp K))
          rw [hQR]
          unfold strictAssemble
          rw [if_neg hbe,
            if_pos (show (joinSlash (urlPieces ([] : Str))).isEmpty = true
              from rfl),
            if_neg (by simpa [List.isEmpty_iff] using hJAne)]
          simp [hcolon]
      · have hJSne : joinSlash pieces ≠ [] := fun h =>
          hPe ((joinSlash_nil_iff hpne).mp h)
        by_cases hKe : K = []
        · subst hKe
          have hout : strictAssemble (c :: rest) host pieces
              ([] : List Str) =
              c :: (rest ++ ':' :: '/' :: '/' ::
                (host ++ '/' :: joinSlash pieces)) := by
            unfold strictAssemble
            rw [if_neg hbe,
              if_neg (by simpa [List.isEmpty_iff] using hJSne)]
            simp [hcolon]
            rfl
          rw [hout]
          unfold strictAssembleOf
          have hsl : List.findIdx? (fun ch => ch = '/')
              (host ++ '/' :: joinSlash pieces) = some host.length := by
            rw [findIdx_append_of_none (pred_false_of_not_mem hhost1),
              findIdxChar_cons_self]
            simp
          have hq : List.findIdx? (fun ch => ch = '?')
              (host ++ '/' :: joinSlash pieces) = none :=
            findIdxChar_none_of (fun hm => by
              rcases List.mem_append.mp hm with h1 | h2
              · exact hhost2 h1
              · exact hRD h2)
          rw [pc_sn (protocolSplit_reassemble hca hall) hsl hq,
            mkHostPath_none (by
              rw [List.drop_left]
              exact findIdxChar_none_of hRD),
            List.take_left, List.drop_left]
          show strictAssemble (c :: rest) host
            (urlPieces ('/' :: joinSlash pieces)) (keptPairs []) =
            c :: (rest ++ ':' :: '/' :: '/' ::
              (host ++ '/' :: joinSlash pieces))
          rw [hUP hPe]
          unfold strictAssemble
          rw [if_neg hbe,
            if_neg (by simpa [List.isEmpty_iff] using hJSne)]
          simp [hcolon]
          rfl
        · have hJAne : joinAmp K ≠ [] := fun h =>
            hKe ((joinAmp_nil_iff hKne).mp h)
          have hout : strictAssemble (c :: rest) host pieces K =
              c :: (rest ++ ':' :: '/' :: '/' ::
                (host ++ ('/' :: joinSlash pieces) ++
                  '?' :: joinAmp K)) := by
            unfold strictAssemble
            rw [if_neg hbe,
              if_neg (by simpa [List.isEmpty_iff] using hJSne),
              if_neg (by simpa [List.isEmpty_iff] using hJAne)]
            simp [hcolon]
          rw [hout]
          unfold strictAssembleOf
          have hdrop : (host ++ ('/' :: joinSlash pieces) ++
              '?' :: joinAmp K) =
              host ++ (('/' :: joinSlash pieces) ++ '?' :: joinAmp K) := by
            rw [List.append_assoc]
          have hsl : List.findIdx? (fun ch => ch = '/')
              (host ++ ('/' :: joinSlash pieces) ++ '?' :: joinAmp K) =
              some host.length := by
            rw [hdrop, findIdx_append_of_none
                (pred_false_of_not_mem hhost1), List.cons_append,
              findIdxChar_cons_self]
            simp
          have hq : List.findIdx? (fun ch => ch = '?')
              (host ++ ('/' :: joinSlash pieces) ++ '?' :: joinAmp K) =
              some (host.length + (joinSlash pieces).length + 1) := by
            rw [show host ++ ('/' :: joinSlash pieces) ++
                '?' :: joinAmp K =
              (host ++ '/' :: joinSlash pieces) ++ '?' :: joinAmp K from
                by rw [List.append_assoc],
              findIdx_append_of_none (pred_false_of_not_mem (fun hm => by
                rcases List.mem_append.mp hm with h1 | h2
                · exact hhost2 h1
                · exact hRD h2)),
              findIdxChar_cons_self]
            simp
            omega
          have hq2 : List.findIdx? (fun ch => ch = '?')
              ((host ++ ('/' :: joinSlash pieces) ++
                '?' :: joinAmp K).drop host.length) =
              some ((joinSlash pieces).length + 1) := by
            rw [hdrop, List.drop_left,
              findIdx_append_of_none (pred_false_of_not_mem hRD),
              findIdxChar_cons_self]
            simp
          rw [pc_sq (protocolSplit_reassemble hca hall) hsl hq,
            if_neg (by omega), mkHostPath_some hq2]
          rw [hdrop, List.take_left, List.drop_left]
          rw [show (('/' :: joinSlash pieces) ++
              '?' :: joinAmp K).take ((joinSlash pieces).length + 1) =
            '/' :: joinSlash pieces from by
              rw [show (joinSlash pieces).length + 1 =
                ('/' :: joinSlash pieces).length from by simp]
              exact take_append_cons _ _ _,
            show (('/' :: joinSlash pieces) ++
              '?' :: joinAmp K).drop ((joinSlash pieces).length + 1 + 1) =
            joinAmp K from by
              rw [show (joinSlash pieces).length + 1 =
                ('/' :: joinSlash pieces).length from by simp]
              exact drop_append_cons _ _ _]
          show strictAssemble (c :: rest) host
            (urlPieces ('/' :: joinSlash pieces))
            (keptPairs (joinAmp K)) =
            c :: (rest ++ ':' :: '/' :: '/' ::
              (host ++ (('/' :: joinSlash pieces) ++ '?' :: joinAmp K)))
          rw [hUP hPe, hQR]
          unfold strictAssemble
          rw [if_neg hbe,
            if_neg (by simpa [List.isEmpty_iff] using hJSne),
            if_neg (by simpa [List.isEmpty_iff] using hJAne)]
          simp [hcolon]

theorem bf_append_iff {a b : Str} :
    braceFree (a ++ b) = true ↔
      braceFree a = true ∧ braceFree b = true := by
  simp [braceFree]

theorem bf_joinSep {sep : Char} {ps : List Str} (hsep : isBrace sep = false)
    (h : ∀ p ∈ ps, braceFree p = true) :
    braceFree (joinSep sep ps) = true := by
  refine List.all_eq_true.mpr (fun c hc => ?_)
  rcases mem_joinSep hc with rfl | ⟨p, hp, hcp⟩
  · simp [hsep]
  · exact List.all_eq_true.mp (h p hp) c hcp

theorem strictAssemble_bf {proto host : Str} {pieces K : List Str}
    (hbfp : braceFree proto = true) (hbfh : braceFree host = true)
    (hpieces : ∀ p ∈ pieces, braceFree p = true)
    (hK : ∀ k ∈ K, braceFree k = true) :
    braceFree (strictAssemble proto host pieces K) = true := by
  unfold strictAssemble
  refine bf_append_iff.mpr ⟨bf_append_iff.mpr ⟨?_, ?_⟩, ?_⟩
  · split
    · rfl
    · exact bf_append_iff.mpr ⟨bf_append_iff.mpr ⟨hbfp, by decide⟩, hbfh⟩
  · split
    · rfl
    · exact bf_cons_iff.mpr ⟨by decide, by
        rw [joinSlash_eq]; exact bf_joinSep (by decide) hpieces⟩
  · split
    · rfl
    · exact bf_cons_iff.mpr ⟨by decide, by
        rw [joinAmp_eq]; exact bf_joinSep (by decide) hK⟩

theorem keptPairs_hyps {q : Str} (h : braceFree q = true) :
    ∀ k ∈ keptPairs q,
      braceFree k = true ∧ '&' ∉ k ∧ keptShape k = true := by
  intro k hk
  obtain ⟨hmem, hshape⟩ := mem_keptPairs hk
  obtain ⟨hsub, hamp, -⟩ := mem_smartSplit_bf h hmem
  exact ⟨bf_sub hsub h, hamp, hshape⟩

theorem urlPieces_hyps {path : Str} (h : '?' ∉ path) :
    ∀ p ∈ urlPieces path, p ≠ [] ∧ '/' ∉ p ∧ '?' ∉ p := by
  intro p hp
  obtain ⟨hmem, hne⟩ := List.mem_filter.mp hp
  refine ⟨fun he => ?_, mem_splitChar_sepFree hmem,
    fun hq => h (mem_splitChar_sub hmem hq)⟩
  rw [he] at hne
  simp at hne

theorem not_mem_of_findIdxChar_none {ch : Char} {l : Str}
    (h : List.findIdx? (fun c => c = ch) l = none) : ch ∉ l := fun hm => by
  have := List.findIdx?_eq_none_iff.mp h ch hm
  simp at this

theorem not_mem_take_of_le {ch : Char} {l : Str} {a b : Nat} (hab : a ≤ b)
    (h : ch ∉ l.take b) : ch ∉ l.take a := fun hm => by
  have he : l.take a = (l.take b).take a := by
    rw [List.take_take, Nat.min_eq_left hab]
  exact h (List.take_subset _ _ (he ▸ hm))

theorem components_shape {s : Str} (hbf : braceFree s = true) :
    ((parseUrlComponents s).1 = [] ∨
      ∃ c rest, (parseUrlComponents s).1 = c :: rest ∧ c.isAlpha = true ∧
        rest.all isProtoChar = true) ∧
    braceFree (parseUrlComponents s).1 = true ∧
    braceFree (parseUrlComponents s).2.1 = true ∧
    '/' ∉ (parseUrlComponents s).2.1 ∧ '?' ∉ (parseUrlComponents s).2.1 ∧
    '?' ∉ (parseUrlComponents s).2.2.1 := by
  cases hps : protocolSplit s with
  | none =>
    cases hq : List.findIdx? (fun c => c = '?') s with
    | none =>
      rw [pc0_none hps hq]
      exact ⟨Or.inl rfl, rfl, rfl, by simp, by simp,
        not_mem_of_findIdxChar_none hq⟩
    | some qi =>
      rw [pc0_some hps hq]
      exact ⟨Or.inl rfl, rfl, rfl, by simp, by simp,
        (findIdxChar_decomp hq).2⟩
  | some pa =>
    obtain ⟨pr, af⟩ := pa
    obtain ⟨hdec, c, rest, hpr, hca, hall⟩ := protocolSplit_some hps
    have haf : braceFree af = true := by
      refine bf_sub (fun x hx => ?_) hbf
      rw [hdec]
      simp [hx]
    have hbfpr : braceFree pr = true := by
      refine bf_sub (fun x hx => ?_) hbf
      rw [hdec]
      simp [hx]
    have hshape : pr = [] ∨ ∃ c rest, pr = c :: rest ∧ c.isAlpha = true ∧
        rest.all isProtoChar = true := Or.inr ⟨c, rest, hpr, hca, hall⟩
    cases hsl : List.findIdx? (fun ch => ch = '/') af with
    | none =>
      have hslm : '/' ∉ af := not_mem_of_findIdxChar_none hsl
      cases hq : List.findIdx? (fun ch => ch = '?') af with
      | none =>
        rw [pc_nn hps hsl hq]
        exact ⟨hshape, hbfpr, haf, hslm,
          not_mem_of_findIdxChar_none hq, by simp⟩
      | some qs =>
        rw [pc_nq hps hsl hq]
        exact ⟨hshape, hbfpr, bf_sub (List.take_subset _ _) haf,
          fun hm => hslm (List.take_subset _ _ hm),
          (findIdxChar_decomp hq).2, by simp⟩
    | some ps =>
      have hslt : '/' ∉ af.take ps := (findIdxChar_decomp hsl).2
      cases hq : List.findIdx? (fun ch => ch = '?') af with
      | none =>
        have hqm : '?' ∉ af := not_mem_of_findIdxChar_none hq
        rw [pc_sn hps hsl hq]
        cases hq2 : List.findIdx? (fun ch => ch = '?') (af.drop ps) with
        | none =>
          rw [mkHostPath_none hq2]
          exact ⟨hshape, hbfpr, bf_sub (List.take_subset _ _) haf, hslt,
            fun hm => hqm (List.take_subset _ _ hm),
            fun hm => hqm (List.drop_subset _ _ hm)⟩
        | some qip =>
          rw [mkHostPath_some hq2]
          exact ⟨hshape, hbfpr, bf_sub (List.take_subset _ _) haf, hslt,
            fun hm => hqm (List.take_subset _ _ hm),
            fun hm => hqm (List.drop_subset _ _
              (List.take_subset _ _ hm))⟩
      | some qs =>
        have hqt : '?' ∉ af.take qs := (findIdxChar_decomp hq).2
        rw [pc_sq hps hsl hq]
        by_cases hlt : qs < ps
        · rw [if_pos hlt]
          exact ⟨hshape, hbfpr, bf_sub (List.take_subset _ _) haf,
            not_mem_take_of_le (by omega) hslt, hqt, by simp⟩
        · rw [if_neg hlt]
          cases hq2 : List.findIdx? (fun ch => ch = '?')
              (af.drop ps) with
          | none =>
            have hqd : '?' ∉ af.drop ps :=
              not_mem_of_findIdxChar_none hq2
            rw [mkHostPath_none hq2]
            exact ⟨hshape, hbfpr, bf_sub (List.take_subset _ _) haf,
              hslt, not_mem_take_of_le (by omega) hqt, hqd⟩
          | some qip =>
            rw [mkHostPath_some hq2]
            exact ⟨hshape, hbfpr, bf_sub (List.take_subset _ _) haf,
              hslt, not_mem_take_of_le (by omega) hqt,
              (findIdxChar_decomp hq2).2⟩

/-! ### Claim C8 -/

/-- C8 (counterexample): STRICT reconstruction is not idempotent — the
literal value `v{A&B}` is spliced verbatim, so the first STRICT output
`?name=A&B` re-parses as two pairs and reconstructs as `?name=A`. -/
theorem strict_idempotence_counterexample :
    pipelineStrict ("?name=v{A&B}".toList) none none =
        some ("?name=A&B".toList) ∧
      pipelineStrict ("?name=A&B".toList) none none =
        some ("?name=A".toList) ∧
      ("?name=A".toList : Str) ≠ "?name=A&B".toList := by
  refine ⟨by decide, by decide, by decide⟩

/-- C8 (amended): on brace-free URL strings — no `{` and no `}` anywhere —
the STRICT reconstruction is idempotent: whenever the full
parse-transform-reconstruct pipeline maps `s` to `out`, it maps `out` to
`out` itself, for every choice of collaborators. -/
theorem strict_pipeline_idempotent_on_brace_free
    (s : Str) (conv : Option TypeConverter) (enc : Option Encryptor)
    (hbf : braceFree s = true) (out : Str)
    (hout : pipelineStrict s conv enc = some out) :
    pipelineStrict out conv enc = some out := by
  rw [pipelineStrict_bf hbf conv enc] at hout
  obtain rfl : strictAssembleOf s = out := by
    injection hout
  obtain ⟨hsh, hbfproto, hbfhost, hh1, hh2, hqpath⟩ := components_shape hbf
  obtain ⟨hpathbf, hqsbf⟩ := components_bf hbf
  rcases hc : parseUrlComponents s with ⟨proto, host, path, qs⟩
  rw [hc] at hsh hbfproto hbfhost hh1 hh2 hqpath hpathbf hqsbf
  have hso : strictAssembleOf s =
      strictAssemble proto host (urlPieces path) (keptPairs qs) := by
    unfold strictAssembleOf
    rw [hc]
  have hKh : ∀ k ∈ keptPairs qs,
      braceFree k = true ∧ '&' ∉ k ∧ keptShape k = true :=
    keptPairs_hyps hqsbf
  have hbfout : braceFree (strictAssembleOf s) = true := by
    rw [hso]
    exact strictAssemble_bf hbfproto hbfhost
      (fun p hp =>
        bf_sub (mem_splitChar_sub (List.mem_filter.mp hp).1) hpathbf)
      (fun k hk => (hKh k hk).1)
  rw [pipelineStrict_bf hbfout conv enc]
  congr 1
  rw [hso]
  exact strictAssembleOf_fix hsh hh1 hh2 (urlPieces_hyps hqpath) hKh

/-- Witness for C8's amended theorem at the concrete brace-free URL
`?a=b`, a fixpoint of the STRICT pipeline. -/
theorem strict_pipeline_idempotent_on_brace_free_witness :
    braceFree ("?a=b".toList) = true ∧
      pipelineStrict ("?a=b".toList) none none =
        some ("?a=b".toList) :=
  ⟨by decide, strict_pipeline_idempotent_on_brace_free ("?a=b".toList)
    none none (by decide) ("?a=b".toList) (by decide)⟩

/-- Witness for C6's amended theorem: the literal PARAMETER segment
`v{X}` indeed gets category Literal. -/
theorem literal_flag_type_invariant_witness :
    literalTypeOK ⟨false, false, true⟩ .LITERAL .PARAMETER :=
  (literal_flag_type_invariant).1 ("/v{X}".toList)
    { segment := "v{X}".toList, originalValue := "v{X}".toList,
      flags := ⟨false, false, true⟩, type := .LITERAL,
      extractedValue := some ("X".toList),
      convertedValue := none, encryptedValue := none,
      finalValue := "X".toList, processingMode := .PARAMETER }
    (by decide)

end Theorems

end UrlParser
